import Mathlib

/-!
Shallow embedding of the mermaid flowchart builder (data model, serializer
and parser) and proofs about it.  JavaScript strings are modelled as lists
of characters (`Str`), so that the standard list lemmas apply; every
function is a direct transcription of the corresponding source function.
The only impurity of the source, `Math.random()` inside `Subgraph.getId`,
is modelled by threading an oracle `rng : Nat → Nat` together with a
position counter through serialization.
-/

namespace Mermaid

/-- Characters of a JavaScript string. -/
abbrev Str := List Char

/-- Convert a Lean string literal into the `Str` representation. -/
def strL (s : String) : Str := s.data

/-- The opening-brace character (written via its code point). -/
def lbrace : Char := Char.ofNat 123

/-- The closing-brace character (written via its code point). -/
def rbrace : Char := Char.ofNat 125

/-- ASCII whitespace, standing in for the JavaScript `\s` class and the
characters removed by `String.prototype.trim`. -/
def isWs (c : Char) : Bool :=
  c == ' ' || c == '\t' || c == '\n' || c == '\r' || c == '\x0b' || c == '\x0c'

/-- Remove leading whitespace. -/
def trimL (s : Str) : Str := s.dropWhile isWs

/-- Remove trailing whitespace. -/
def trimR (s : Str) : Str := (s.reverse.dropWhile isWs).reverse

/-- JavaScript `String.prototype.trim`. -/
def trim (s : Str) : Str := trimR (trimL s)

/-- JavaScript `Array.prototype.join('\n')`. -/
def joinLines : List Str → Str
  | [] => []
  | [c] => c
  | c :: cs => c ++ '\n' :: joinLines cs

/-- JavaScript `String.prototype.split(',')`. -/
def splitComma : Str → List Str
  | [] => [[]]
  | c :: r =>
      match splitComma r with
      | [] => [[c]]
      | l :: ls => if c = ',' then [] :: l :: ls else (c :: l) :: ls

/-- JavaScript `Array.prototype.join(',')`. -/
def joinComma : List Str → Str
  | [] => []
  | [c] => c
  | c :: cs => c ++ ',' :: joinComma cs

/-- The decimal digit character for `d < 10`. -/
def digitChar (d : Nat) : Char := Char.ofNat (48 + d)

/-- Decimal digits of `k`, least significant first; the fuel argument makes
the recursion structural (any fuel above `k` computes the digits). -/
def natDigitsRev : Nat → Nat → List Char
  | 0, _ => []
  | fuel + 1, k => if k < 10 then [digitChar k] else digitChar (k % 10) :: natDigitsRev fuel (k / 10)

/-- JavaScript number-to-string conversion for a natural number. -/
def natToStr (k : Nat) : Str := (natDigitsRev (k + 1) k).reverse

/-- Numeric value of a list of decimal digit characters, most significant
first; models `Number.parseInt(s, 10)` on an all-digit string. -/
def parseNatDigits (s : Str) : Nat := s.foldl (fun a c => 10 * a + (c.toNat - 48)) 0

/-- Truthiness of a JavaScript string: the empty string is falsy. -/
def truthyStr (s : Str) : Bool := !s.isEmpty

/-- Truthiness of a possibly-undefined JavaScript string field. -/
def optTruthy (o : Option Str) : Bool :=
  match o with
  | some s => truthyStr s
  | none => false

/-- The `ChartDir` enumeration. -/
inductive ChartDir : Type where
  | LR | TD | TB | RL | BT
deriving DecidableEq, Repr

/-- The string value of a `ChartDir` member. -/
def ChartDir.token : ChartDir → Str
  | .LR => strL "LR"
  | .TD => strL "TD"
  | .TB => strL "TB"
  | .RL => strL "RL"
  | .BT => strL "BT"

/-- The alternation `(LR|TD|TB|RL|BT)` anchored on the whole token. -/
def dirOfToken (s : Str) : Option ChartDir :=
  if s = strL "LR" then some .LR
  else if s = strL "TD" then some .TD
  else if s = strL "TB" then some .TB
  else if s = strL "RL" then some .RL
  else if s = strL "BT" then some .BT
  else none

/-- The `NodeShape` enumeration.  Each member value is a delimiter template
such as `(VAL)`; it is represented by its opening and closing delimiter. -/
inductive NodeShape : Type where
  | RECT_ROUND | STADIUM | SUBROUTINE | CYLINDER | CIRCLE | ASSYMETRIC | RHOMBUS | HEXAGON
deriving DecidableEq, Repr

/-- Opening delimiter of a shape template. -/
def NodeShape.openD : NodeShape → Str
  | .RECT_ROUND => ['(']
  | .STADIUM => ['(', '[']
  | .SUBROUTINE => ['[', '[']
  | .CYLINDER => ['[', '(']
  | .CIRCLE => ['(', '(']
  | .ASSYMETRIC => ['>']
  | .RHOMBUS => [lbrace]
  | .HEXAGON => [lbrace, lbrace]

/-- Closing delimiter of a shape template. -/
def NodeShape.closeD : NodeShape → Str
  | .RECT_ROUND => [')']
  | .STADIUM => [']', ')']
  | .SUBROUTINE => [']', ']']
  | .CYLINDER => [')', ']']
  | .CIRCLE => [')', ')']
  | .ASSYMETRIC => [']']
  | .RHOMBUS => [rbrace]
  | .HEXAGON => [rbrace, rbrace]

/-- `shape.replace('VAL', title)`: each template contains `VAL` exactly once,
so the replacement yields opening delimiter, title, closing delimiter. -/
def NodeShape.render (sh : NodeShape) (title : Str) : Str :=
  sh.openD ++ title ++ sh.closeD

/-- The `LinkType` enumeration. -/
inductive LinkType : Type where
  | ARROW | OPEN | INVISIBLE
deriving DecidableEq, Repr

/-- The string value of a `LinkType` member. -/
def LinkType.token : LinkType → Str
  | .ARROW => strL "-->"
  | .OPEN => strL "---"
  | .INVISIBLE => strL "~~~"

/-- The `LinkStyle` class: an optional attribute bag. -/
structure LinkStyle : Type where
  stroke : Option Str
  strokeWidth : Option Str
  color : Option Str
deriving DecidableEq, Repr

/-- `LinkStyle.toString`: present (truthy) attributes, comma-joined. -/
def LinkStyle.toStr (s : LinkStyle) : Str :=
  joinComma
    ((if optTruthy s.stroke then [strL "stroke:" ++ s.stroke.getD []] else []) ++
     (if optTruthy s.strokeWidth then [strL "stroke-width:" ++ s.strokeWidth.getD []] else []) ++
     (if optTruthy s.color then [strL "color:" ++ s.color.getD []] else []))

/-- The `strokeDasharray` field: a raw string or an array of numbers. -/
abbrev Dasharray := Sum Str (List Nat)

/-- Truthiness of the `strokeDasharray` field: an array is always truthy,
a string only when non-empty. -/
def dashTruthy (o : Option Dasharray) : Bool :=
  match o with
  | some (Sum.inl s) => truthyStr s
  | some (Sum.inr _) => true
  | none => false

/-- Normalized text of a truthy `strokeDasharray` value: arrays are
space-joined. -/
def dashText (d : Dasharray) : Str :=
  match d with
  | Sum.inl s => s
  | Sum.inr l => List.intercalate [' '] (l.map natToStr)

/-- The `NodeStyle` class: an optional attribute bag. -/
structure NodeStyle : Type where
  fill : Option Str
  stroke : Option Str
  strokeWidth : Option Str
  color : Option Str
  strokeDasharray : Option Dasharray
deriving DecidableEq, Repr

/-- `NodeStyle.toString`: present (truthy) attributes, comma-joined, in the
fixed field order. -/
def NodeStyle.toStr (s : NodeStyle) : Str :=
  joinComma
    ((if optTruthy s.fill then [strL "fill:" ++ s.fill.getD []] else []) ++
     (if optTruthy s.stroke then [strL "stroke:" ++ s.stroke.getD []] else []) ++
     (if optTruthy s.strokeWidth then [strL "stroke-width:" ++ s.strokeWidth.getD []] else []) ++
     (if optTruthy s.color then [strL "color:" ++ s.color.getD []] else []) ++
     (if dashTruthy s.strokeDasharray then
        [strL "stroke-dasharray:" ++ dashText ((s.strokeDasharray).getD (Sum.inl []))] else []))

/-- Characters kept by the identifier-derivation in `ChartNode.ensureId`:
the class `[a-zA-Z0-9\-_!#$]`. -/
def safeIdChar (c : Char) : Bool :=
  c.isAlpha || c.isDigit || c == '-' || c == '_' || c == '!' || c == '#' || c == '$'

/-- The `ChartNode` class. -/
structure ChartNode : Type where
  title : Str
  shape : NodeShape
  id : Str
  className : Option Str
deriving DecidableEq, Repr

/-- `ChartNode.ensureId`: if the identifier is empty and the title truthy,
derive the identifier by `title.replace(/[^a-zA-Z0-9\-_!#$]+/g, '')`, that
is, by keeping only the safe characters. -/
def ChartNode.ensureId (n : ChartNode) : ChartNode :=
  if n.id = [] ∧ n.title ≠ [] then { n with id := n.title.filter safeIdChar } else n

/-- `ChartNode.getId`: the identifier after `ensureId`, together with the
node state after the (memoizing) call. -/
def ChartNode.getId (n : ChartNode) : Str × ChartNode :=
  let m := n.ensureId
  (m.id, m)

/-- `ChartNode.toString`. -/
def ChartNode.toStr (n : ChartNode) : Str :=
  let m := n.ensureId
  m.id ++ m.shape.render m.title ++
    (match m.className with
     | some cls => if truthyStr cls then strL ":::" ++ cls else []
     | none => [])

/-- A `string | ChartNode` union field. -/
abbrev NodeRef := Sum Str ChartNode

/-- Resolve a `string | ChartNode` value to an identifier (calling `getId`
on a node; the memoizing mutation is unobservable since `ensureId` is
idempotent and deterministic). -/
def resolveRef (r : NodeRef) : Str :=
  match r with
  | Sum.inl s => s
  | Sum.inr n => n.getId.1

/-- A `string | LinkStyle` union field. -/
abbrev LinkStyleV := Sum Str LinkStyle

/-- Truthiness of a `style?: string | LinkStyle` field: objects are truthy,
strings only when non-empty. -/
def styleTruthy (o : Option LinkStyleV) : Bool :=
  match o with
  | some (Sum.inl s) => truthyStr s
  | some (Sum.inr _) => true
  | none => false

/-- Normalized text of a link style value. -/
def linkStyleText (v : LinkStyleV) : Str :=
  match v with
  | Sum.inl s => s
  | Sum.inr st => st.toStr

/-- The `Link` class. -/
structure Link : Type where
  src : NodeRef
  dest : NodeRef
  text : Option Str
  type : LinkType
  style : Option LinkStyleV
deriving DecidableEq, Repr

/-- `Link.toString`. -/
def Link.toStr (l : Link) : Str :=
  resolveRef l.src ++ [' '] ++ l.type.token ++ [' '] ++
    (match l.text with
     | some t => if truthyStr t then ['|'] ++ t ++ ['|'] else []
     | none => []) ++ resolveRef l.dest

/-- `Link.printStyle`. -/
def Link.printStyle (l : Link) (linkCount : Nat) : Str :=
  if styleTruthy l.style then
    strL "linkStyle " ++ natToStr linkCount ++ [' '] ++
      linkStyleText ((l.style).getD (Sum.inl [])) ++ [';']
  else []

/-- The `ClassDef` class. -/
structure ClassDef : Type where
  classNames : Sum Str (List Str)
  style : Sum Str NodeStyle
deriving DecidableEq, Repr

/-- `ClassDef.toString`. -/
def ClassDef.toStr (d : ClassDef) : Str :=
  strL "classDef " ++
    (match d.classNames with
     | Sum.inl s => s
     | Sum.inr l => joinComma l) ++ [' '] ++
    (match d.style with
     | Sum.inl s => s
     | Sum.inr st => st.toStr)

/-- The `nodes` field of `ClassAttachment`: a node reference or an array of
node references. -/
abbrev AttachNodes := Sum NodeRef (List NodeRef)

/-- The `ClassAttachment` class. -/
structure ClassAttachment : Type where
  nodes : AttachNodes
  className : Str
deriving DecidableEq, Repr

/-- `ClassAttachment.toString`. -/
def ClassAttachment.toStr (a : ClassAttachment) : Str :=
  strL "class " ++
    (match a.nodes with
     | Sum.inl r => resolveRef r
     | Sum.inr l => joinComma (l.map resolveRef)) ++ [' '] ++
    a.className ++ [';']

mutual
/-- The `Chart` class (field order as in the source: title, direction,
nodes, links, subgraphs, classDefs, classAttachments,
positionalLinkStyles). -/
inductive Chart : Type where
  | mk (title : Option Str) (direction : ChartDir) (nodes : List ChartNode)
      (links : List Link) (subgraphs : List Subgraph) (classDefs : List ClassDef)
      (classAttachments : List ClassAttachment)
      (positionalLinkStyles : List (Nat × LinkStyleV))

/-- The `Subgraph` class: it extends `Chart` with an optional identifier. -/
inductive Subgraph : Type where
  | mk (id : Option Str) (toChart : Chart)
end

/-- The `title` field. -/
def Chart.title : Chart → Option Str
  | .mk t _ _ _ _ _ _ _ => t

/-- The `direction` field. -/
def Chart.direction : Chart → ChartDir
  | .mk _ d _ _ _ _ _ _ => d

/-- The `nodes` field. -/
def Chart.nodes : Chart → List ChartNode
  | .mk _ _ n _ _ _ _ _ => n

/-- The `links` field. -/
def Chart.links : Chart → List Link
  | .mk _ _ _ l _ _ _ _ => l

/-- The `subgraphs` field. -/
def Chart.subgraphs : Chart → List Subgraph
  | .mk _ _ _ _ s _ _ _ => s

/-- The `classDefs` field. -/
def Chart.classDefs : Chart → List ClassDef
  | .mk _ _ _ _ _ d _ _ => d

/-- The `classAttachments` field. -/
def Chart.classAttachments : Chart → List ClassAttachment
  | .mk _ _ _ _ _ _ a _ => a

/-- The `positionalLinkStyles` field. -/
def Chart.positionalLinkStyles : Chart → List (Nat × LinkStyleV)
  | .mk _ _ _ _ _ _ _ p => p

/-- The `id` field of a `Subgraph`. -/
def Subgraph.sid : Subgraph → Option Str
  | .mk i _ => i

/-- The `Chart` part of a `Subgraph`. -/
def Subgraph.toChart : Subgraph → Chart
  | .mk _ c => c

/-- The `Chart` constructor: `new Chart(title, direction)`. -/
def Chart.new (title : Option Str) (direction : ChartDir) : Chart :=
  .mk title direction [] [] [] [] [] []

/-- `Chart.addNode` for a node object. -/
def Chart.addNode : Chart → ChartNode → Chart
  | .mk t d ns ls ss cd ca pl, n => .mk t d (ns ++ [n]) ls ss cd ca pl

/-- `Chart.addLink`. -/
def Chart.addLink : Chart → Link → Chart
  | .mk t d ns ls ss cd ca pl, l => .mk t d ns (ls ++ [l]) ss cd ca pl

/-- `Chart.addSubgraph`. -/
def Chart.addSubgraph : Chart → Subgraph → Chart
  | .mk t d ns ls ss cd ca pl, s => .mk t d ns ls (ss ++ [s]) cd ca pl

/-- `Chart.addClassDef`. -/
def Chart.addClassDef : Chart → ClassDef → Chart
  | .mk t d ns ls ss cd ca pl, c => .mk t d ns ls ss (cd ++ [c]) ca pl

/-- `Chart.attachClass`. -/
def Chart.attachClass : Chart → AttachNodes → Str → Chart
  | .mk t d ns ls ss cd ca pl, nodes, cls => .mk t d ns ls ss cd (ca ++ [⟨nodes, cls⟩]) pl

/-- `Chart.addLinkStyle` in its positional (numeric index) form. -/
def Chart.addPositionalLinkStyle : Chart → Nat → LinkStyleV → Chart
  | .mk t d ns ls ss cd ca pl, k, v => .mk t d ns ls ss cd ca (pl ++ [(k, v)])

/-- Overwrite the `direction` field (the parser assigns it after
constructing a subgraph). -/
def Chart.setDirection : Chart → ChartDir → Chart
  | .mk t _ ns ls ss cd ca pl, d => .mk t d ns ls ss cd ca pl

/-- Characters kept by the identifier-derivation in `Subgraph.getId`: the
class `[a-zA-Z0-9\-_]`. -/
def subIdChar (c : Char) : Bool :=
  c.isAlpha || c.isDigit || c == '-' || c == '_'

/-- `Subgraph.getId`: the explicit identifier if truthy, else the filtered
title if truthy, else `'subgraph' + Math.floor(Math.random() * 1000000)`;
the random draw is modelled by the oracle `rng` at position `rpos`, which
is consumed only on the random branch. -/
def subgraphGetId (idO : Option Str) (title : Option Str) (rng : Nat → Nat) (rpos : Nat) :
    Str × Nat :=
  if optTruthy idO then (idO.getD [], rpos)
  else if optTruthy title then ((title.getD []).filter subIdChar, rpos)
  else (strL "subgraph" ++ natToStr (rng rpos), rpos + 1)

/-- The loop over `this.links` in `Chart.printBody`: emit each link line,
an inline `linkStyle` line after it when the style is truthy, and advance
the running counter by one per link. -/
def printLinks : List Link → Str → Nat → List Str × Nat
  | [], _, k => ([], k)
  | l :: rest, indent, k =>
      let styleLines := if styleTruthy l.style then [indent ++ l.printStyle k] else []
      let r := printLinks rest indent (k + 1)
      ((indent ++ l.toStr) :: styleLines ++ r.1, r.2)

mutual
/-- `Chart.printBody`: the shared body serialization.  Returns the emitted
text together with the advanced link counter and oracle position. -/
def Chart.printBody : Chart → Str → Nat → (Nat → Nat) → Nat → Str × Nat × Nat
  | .mk _ _ ns ls ss cd ca pl, indent, linkCount, rng, rpos =>
      let nodeLines := ns.map (fun n => indent ++ n.toStr)
      let lk := printLinks ls indent linkCount
      let sb := printSubgraphList ss indent lk.2 rng rpos
      let cdLines := cd.map (fun d => indent ++ d.toStr)
      let caLines := ca.map (fun a => indent ++ a.toStr)
      let plLines := pl.map (fun p =>
        indent ++ strL "linkStyle " ++ natToStr p.1 ++ [' '] ++ linkStyleText p.2 ++ [';'])
      (joinLines (nodeLines ++ lk.1 ++ sb.1 ++ cdLines ++ caLines ++ plLines),
       sb.2.1, sb.2.2)

/-- The loop over `this.subgraphs` in `Chart.printBody`: each subgraph is
printed with the current counter and the counter advanced to the returned
`nextLinkCount`. -/
def printSubgraphList : List Subgraph → Str → Nat → (Nat → Nat) → Nat → List Str × Nat × Nat
  | [], _, k, _, rp => ([], k, rp)
  | s :: rest, indent, k, rng, rp =>
      let hd := s.print indent k rng rp
      let tl := printSubgraphList rest indent hd.2.1 rng hd.2.2
      (hd.1 :: tl.1, tl.2.1, tl.2.2)

/-- `Subgraph.print`: header with identifier and bracketed title, a
`direction` line, the body at increased indentation, and a closing `end`. -/
def Subgraph.print : Subgraph → Str → Nat → (Nat → Nat) → Nat → Str × Nat × Nat
  | .mk idO ch, indent, linkCount, rng, rpos =>
      let gi := subgraphGetId idO ch.title rng rpos
      let body := ch.printBody (indent ++ strL "  ") linkCount rng gi.2
      (joinLines
        [indent ++ strL "subgraph " ++ gi.1 ++ strL " [" ++
           (if optTruthy ch.title then (ch.title).getD [] else []) ++ [']'],
         indent ++ strL "  direction " ++ (ch.direction).token,
         body.1,
         indent ++ strL "end"],
       body.2.1, body.2.2)
end

/-- `Chart.print`: optional front-matter block, the `flowchart` header, the
body at increased indentation, and a trailing blank line. -/
def Chart.print (c : Chart) (indent : Str) (linkCount : Nat) (rng : Nat → Nat) (rpos : Nat) :
    Str × Nat × Nat :=
  let fm :=
    if optTruthy c.title then
      [indent ++ strL "---", indent ++ strL "title: " ++ (c.title).getD [], indent ++ strL "---"]
    else []
  let body := c.printBody (indent ++ strL "  ") linkCount rng rpos
  (joinLines (fm ++ [indent ++ strL "flowchart " ++ (c.direction).token, body.1, []]),
   body.2.1, body.2.2)

/-- `Chart.toString` (with the randomness oracle made explicit). -/
def Chart.toStr (c : Chart) (rng : Nat → Nat) : Str := (c.print [] 0 rng 0).1

/-! ## The parser

The regular expressions of the source are transcribed as explicit
matching functions.  All of them are applied by the parser to trimmed
lines only, and the transcriptions are faithful on strings without
leading or trailing whitespace (where the regex engine's backtracking
inside `\s+`/`\s*` boundaries never changes the outcome). -/

/-- JavaScript line terminators: the characters never matched by the
regex `.` (dot) outside a character class. -/
def isLineTerm (c : Char) : Bool :=
  c == '\n' || c == '\r' || c == Char.ofNat 0x2028 || c == Char.ofNat 0x2029

/-- No line terminator occurs in the string: the condition for a greedy
`.*` or `.+` capture to reach the end-of-string anchor. -/
def noLTB (s : Str) : Bool := s.all (fun c => !isLineTerm c)

/-- Strip the literal keyword `kw` from the front of `l`. -/
def stripKw (kw : Str) (l : Str) : Option Str :=
  if kw.isPrefixOf l then some (l.drop kw.length) else none

/-- Match `\s+` at the front: at least one whitespace character, greedily. -/
def stripWsPlus (l : Str) : Option Str :=
  match l with
  | c :: r => if isWs c then some ((c :: r).dropWhile isWs) else none
  | [] => none

/-- The regex `/^subgraph\s+([^\s\[]+)\s*(?:\[(.*)\])?$/`.  The inner
`.*` is a dot capture, so it never matches a line terminator; a bracketed
title containing one fails the whole anchored match (dropping characters
from the greedy `\s*` or id runs only enlarges the failing remainder). -/
def subgraphMatch (l : Str) : Option (Str × Option Str) :=
  match stripKw (strL "subgraph") l with
  | none => none
  | some r =>
      match stripWsPlus r with
      | none => none
      | some r1 =>
          let id := r1.takeWhile (fun c => !isWs c && c ≠ '[')
          if id = [] then none
          else
            let r2 := (r1.drop id.length).dropWhile isWs
            if r2 = [] then some (id, none)
            else if r2.head? = some '[' ∧ r2.getLast? = some ']' ∧
                noLTB ((r2.drop 1).dropLast) = true then
              some (id, some ((r2.drop 1).dropLast))
            else none

/-- The regex `/^classDef\s+([^\s]+)\s+(.+)$/`.  The `.+` capture cannot
contain a line terminator: the dot never matches one, and backtracking
into the greedy `\s+` only grows the failing remainder. -/
def classDefMatch (l : Str) : Option (Str × Str) :=
  match stripKw (strL "classDef") l with
  | none => none
  | some r =>
      match stripWsPlus r with
      | none => none
      | some r1 =>
          let names := r1.takeWhile (fun c => !isWs c)
          if names = [] then none
          else
            match stripWsPlus (r1.drop names.length) with
            | none => none
            | some r2 =>
                if r2 = [] then none
                else if noLTB r2 then some (names, r2) else none

/-- The regex `/^class\s+([^\s]+)\s+([^\s;]+);?$/`. -/
def classAttachMatch (l : Str) : Option (Str × Str) :=
  match stripKw (strL "class") l with
  | none => none
  | some r =>
      match stripWsPlus r with
      | none => none
      | some r1 =>
          let nodes := r1.takeWhile (fun c => !isWs c)
          if nodes = [] then none
          else
            match stripWsPlus (r1.drop nodes.length) with
            | none => none
            | some r2 =>
                let cls := r2.takeWhile (fun c => !isWs c && c ≠ ';')
                if cls = [] then none
                else
                  let rem := r2.drop cls.length
                  if rem = [] ∨ rem = [';'] then some (nodes, cls) else none

/-- The regex `/^linkStyle\s+(\d+)\s+(.+);?$/`; the second capture is the
whole remainder (the greedy `.+` also swallows a final semicolon), and it
must be free of line terminators, which the dot never matches. -/
def linkStyleMatch (l : Str) : Option (Nat × Str) :=
  match stripKw (strL "linkStyle") l with
  | none => none
  | some r =>
      match stripWsPlus r with
      | none => none
      | some r1 =>
          let digits := r1.takeWhile Char.isDigit
          if digits = [] then none
          else
            match stripWsPlus (r1.drop digits.length) with
            | none => none
            | some r2 =>
                if r2 = [] then none
                else if noLTB r2 then some (parseNatDigits digits, r2) else none

/-- `style.trim().replace(/;$/, '')`: drop one trailing semicolon. -/
def dropSemi (s : Str) : Str :=
  if s.getLast? = some ';' then s.dropLast else s

/-- Match one of the three link-kind tokens at the front of `l`. -/
def arrowAtFront (l : Str) : Option (LinkType × Str) :=
  if (strL "-->").isPrefixOf l then some (.ARROW, l.drop 3)
  else if (strL "---").isPrefixOf l then some (.OPEN, l.drop 3)
  else if (strL "~~~").isPrefixOf l then some (.INVISIBLE, l.drop 3)
  else none

/-- The regex `/^([^\s]+)\s+(-->|---|~~~)\s*(?:\|([^|]+)\|)?\s*([^\s]+)$/`.
When the pipe-delimited group fails (no closing pipe, or a destination
containing whitespace), the engine falls back to matching the destination
without the group; `linkMatch` reproduces that backtracking. -/
def linkMatch (l : Str) : Option (Str × LinkType × Option Str × Str) :=
  let src := l.takeWhile (fun c => !isWs c)
  if src = [] then none
  else
    match stripWsPlus (l.drop src.length) with
    | none => none
    | some r2 =>
        match arrowAtFront r2 with
        | none => none
        | some (ty, r3) =>
            let r4 := r3.dropWhile isWs
            let fallback : Option (Str × LinkType × Option Str × Str) :=
              if r4 ≠ [] ∧ r4.all (fun c => !isWs c) then some (src, ty, none, r4) else none
            match r4 with
            | '|' :: r5 =>
                let t := r5.takeWhile (fun c => c ≠ '|')
                if t ≠ [] ∧ (r5.drop t.length).head? = some '|' then
                  let r6 := (r5.drop (t.length + 1)).dropWhile isWs
                  if r6 ≠ [] ∧ r6.all (fun c => !isWs c) then some (src, ty, some t, r6)
                  else fallback
                else fallback
            | _ => fallback

/-- The regex `/^direction\s+(LR|TD|TB|RL|BT)$/`. -/
def directionMatch (l : Str) : Option ChartDir :=
  match stripKw (strL "direction") l with
  | none => none
  | some r =>
      match stripWsPlus r with
      | none => none
      | some r1 => dirOfToken r1

/-- The regex `/^flowchart\s+(LR|TD|TB|RL|BT)$/`. -/
def headerMatch (l : Str) : Option ChartDir :=
  match stripKw (strL "flowchart") l with
  | none => none
  | some r =>
      match stripWsPlus r with
      | none => none
      | some r1 => dirOfToken r1

/-- The regex `/^title:\s*(.*)$/`.  The `.*` capture never matches a line
terminator; if one survives the greedy `\s*`, the anchored match fails. -/
def titleMatch (l : Str) : Option Str :=
  match stripKw (strL "title:") l with
  | none => none
  | some r =>
      let cap := r.dropWhile isWs
      if noLTB cap then some cap else none

/-- `line.lastIndexOf(':::')`. -/
def lastSepIdx (l : Str) : Option Nat :=
  ((List.range l.length).filter (fun i => (strL ":::").isPrefixOf (l.drop i))).getLast?

/-- Match `^open(capture)close$` for a fixed delimiter pair (the capture is
`[\s\S]*`, greedy, so the match is unique). -/
def matchDelim (op cl s : Str) : Option Str :=
  if op.isPrefixOf s ∧ cl.isSuffixOf s ∧ op.length + cl.length ≤ s.length then
    some ((s.drop op.length).take (s.length - op.length - cl.length))
  else none

/-- The shape candidates of `parseNodeLine`, in the fixed priority order. -/
def shapeCandidates : List NodeShape :=
  [.HEXAGON, .CIRCLE, .SUBROUTINE, .CYLINDER, .STADIUM, .RHOMBUS, .RECT_ROUND, .ASSYMETRIC]

/-- Try the shape candidates in priority order against `rest`. -/
def matchShape (rest : Str) : List NodeShape → Option (NodeShape × Str)
  | [] => none
  | sh :: more =>
      match matchDelim sh.openD sh.closeD rest with
      | some cap => some (sh, cap)
      | none => matchShape rest more

/-- `parseNodeLine`: split off the rightmost `:::` class suffix, take the
maximal safe-identifier prefix (the regex `^([a-zA-Z0-9\-_!#$]+)(.+)$`; a
shorter, backtracked prefix would leave a remainder starting with a safe
character, which no shape delimiter matches, so the maximal prefix is
faithful), then try the shapes in priority order.  The `(.+)` remainder
capture is dot-based, so a line terminator anywhere in it (a shorter id
prefix only enlarges the remainder) makes the id pattern fail and the
node line unparseable; the class suffix is taken by `slice`/`trim`, not
by a regex, and is not restricted. -/
def parseNodeLine (line : Str) : Option ChartNode :=
  let withCls : Option (Str × Option Str) :=
    match lastSepIdx line with
    | some i =>
        let cls := trim (line.drop (i + 3))
        if cls = [] then none else some (line.take i, some cls)
    | none => some (line, none)
  match withCls with
  | none => none
  | some (content, cls) =>
      let id := content.takeWhile safeIdChar
      if id = [] then none
      else
        let rest := content.drop id.length
        if rest = [] then none
        else if noLTB rest then
          match matchShape rest shapeCandidates with
          | some (sh, cap) => some ⟨cap, sh, id, cls⟩
          | none => none
        else none

/-- Parse errors; `fuelOut` is the artifact of the fuel-based recursion and
is unreachable for fuel exceeding the number of input lines. -/
inductive PErr : Type where
  | fuelOut
  | msg (s : Str)
deriving DecidableEq, Repr

/-- Message: invalid mermaid frontmatter. -/
def errFrontMatter : PErr := .msg (strL "Invalid mermaid frontmatter: missing closing ---")

/-- Message: missing flowchart declaration. -/
def errMissingDecl : PErr := .msg (strL "Invalid mermaid flowchart: missing flowchart declaration")

/-- Message: invalid flowchart declaration, quoting the header line. -/
def errInvalidDecl (h : Str) : PErr :=
  .msg (strL "Invalid flowchart declaration: \"" ++ h ++ strL "\"")

/-- Message: unexpected `end` at root level. -/
def errRootEnd : PErr := .msg (strL "Unexpected \"end\" at root level")

/-- Message: subgraph missing direction and body. -/
def errMissingDirBody (id : Str) : PErr :=
  .msg (strL "Subgraph \"" ++ id ++ strL "\" is missing direction and body")

/-- Message: subgraph missing a valid direction line. -/
def errMissingDir (id : Str) : PErr :=
  .msg (strL "Subgraph \"" ++ id ++ strL "\" is missing a valid direction line")

/-- Message: subgraph missing its closing `end`. -/
def errMissingEnd (id : Str) : PErr :=
  .msg (strL "Subgraph \"" ++ id ++ strL "\" is missing closing \"end\"")

/-- Message: unsupported mermaid line, quoting the (trimmed) line. -/
def errUnsupported (l : Str) : PErr :=
  .msg (strL "Unsupported mermaid line: \"" ++ l ++ strL "\"")

/-- The mutable `ParseState` threaded through the recursive descent.  The
source also keeps `linksByIndex`, a map from assigned running index to the
link object; it is carried here as an association list of link values,
updated in the same places the source updates the shared objects. -/
structure ParseState : Type where
  nextLinkIndex : Nat
  linksByIndex : List (Nat × Link)
  lastParsedLinkIndex : Option Nat
deriving DecidableEq, Repr

/-- `Map.prototype.get`. -/
def mapGet (m : List (Nat × Link)) (k : Nat) : Option Link :=
  (m.find? (fun p => p.1 == k)).map (fun p => p.2)

/-- `Map.prototype.set` (the new binding shadows any previous one). -/
def mapSet (m : List (Nat × Link)) (k : Nat) (v : Link) : List (Nat × Link) :=
  (k, v) :: m

/-- Inline attachment `link.style = style`: in the source this mutates the
link object aliased both by `state.linksByIndex` and as the last element of
the current chart's `links` array (it is the link parsed by the immediately
preceding statement); here the chart's last link is updated. -/
def Chart.setLastLinkStyle : Chart → LinkStyleV → Chart
  | .mk t d ns ls ss cd ca pl, v =>
      .mk t d ns (ls.dropLast ++ (ls.getLast?.map (fun l => [{ l with style := some v }])).getD [])
        ss cd ca pl

/-- A blank line (after trimming). -/
def isBlank (l : Str) : Bool := trim l = []

/-- `parseChartBody`: the line loop, as fuel-indexed structural recursion
(one fuel unit per loop iteration or nested body; any fuel above the number
of remaining lines is enough, see `parseBodyAux_fuel_mono` and
`parseBodyAux_fuel_enough`).  The local loop variable
`lastStatementWasLink` becomes the parameter `lastWasLink`; the returned
values are the remaining lines, the chart (the source mutates its `chart`
argument), the parse state, and the `foundEndToken` flag. -/
def parseBodyAux : Nat → List Str → Chart → ParseState → Bool → Bool →
    Except PErr (List Str × Chart × ParseState × Bool)
  | 0, _, _, _, _, _ => .error .fuelOut
  | fuel + 1, lines, chart, st, stopOnEnd, lastWasLink =>
      match lines with
      | [] => .ok ([], chart, st, false)
      | rawLine :: rest =>
          let line := trim rawLine
          if line = [] then parseBodyAux fuel rest chart st stopOnEnd lastWasLink
          else if line = strL "end" then .ok (rest, chart, st, true)
          else
            match subgraphMatch line with
            | some (sgId, titleO) =>
                let sgTitle := titleO.getD []
                let rest1 := rest.dropWhile isBlank
                match rest1 with
                | [] => .error (errMissingDirBody sgId)
                | dLine :: rest2 =>
                    match directionMatch (trim dLine) with
                    | none => .error (errMissingDir sgId)
                    | some dir =>
                        let sub0 := (Chart.new (some sgTitle) .TD).setDirection dir
                        match parseBodyAux fuel rest2 sub0 st true false with
                        | .error e => .error e
                        | .ok (rem, subC, st', found) =>
                            if found then
                              parseBodyAux fuel rem
                                (chart.addSubgraph (.mk (some sgId) subC)) st' stopOnEnd false
                            else .error (errMissingEnd sgId)
            | none =>
                match classDefMatch line with
                | some (names, styRaw) =>
                    let cnames : Sum Str (List Str) :=
                      if names.contains ',' then Sum.inr ((splitComma names).map trim)
                      else Sum.inl names
                    parseBodyAux fuel rest
                      (chart.addClassDef ⟨cnames, Sum.inl (trim styRaw)⟩) st stopOnEnd false
                | none =>
                    match classAttachMatch line with
                    | some (nodesS, cls) =>
                        let parts := (splitComma nodesS).map trim
                        let nodesV : AttachNodes :=
                          match parts with
                          | [p] => Sum.inl (Sum.inl p)
                          | _ => Sum.inr (parts.map Sum.inl)
                        parseBodyAux fuel rest (chart.attachClass nodesV cls) st stopOnEnd false
                    | none =>
                        match linkStyleMatch line with
                        | some (k, cap) =>
                            let sty := dropSemi (trim cap)
                            let inlineOk : Bool :=
                              lastWasLink && st.lastParsedLinkIndex == some k &&
                                (match mapGet st.linksByIndex k with
                                 | some l => !styleTruthy l.style
                                 | none => false)
                            if inlineOk then
                              parseBodyAux fuel rest (chart.setLastLinkStyle (Sum.inl sty))
                                { st with linksByIndex :=
                                    (st.linksByIndex.map (fun p =>
                                      if p.1 = k then (p.1, { p.2 with style := some (Sum.inl sty) })
                                      else p)) }
                                stopOnEnd false
                            else
                              parseBodyAux fuel rest
                                (chart.addPositionalLinkStyle k (Sum.inl sty)) st stopOnEnd false
                        | none =>
                            match linkMatch line with
                            | some (src, ty, txt, dst) =>
                                let link : Link := ⟨Sum.inl src, Sum.inl dst, txt, ty, none⟩
                                parseBodyAux fuel rest (chart.addLink link)
                                  { nextLinkIndex := st.nextLinkIndex + 1,
                                    linksByIndex := mapSet st.linksByIndex st.nextLinkIndex link,
                                    lastParsedLinkIndex := some st.nextLinkIndex }
                                  stopOnEnd true
                            | none =>
                                match parseNodeLine line with
                                | some n =>
                                    parseBodyAux fuel rest (chart.addNode n) st stopOnEnd false
                                | none => .error (errUnsupported line)

/-- The front-matter scan of `parseFlowchart`: consume lines until the
closing `---`, remembering the last `title:` capture. -/
def fmScan : List Str → Option Str → Except PErr (Option Str × List Str)
  | [], _ => .error errFrontMatter
  | l :: r, t =>
      let tl := trim l
      if tl = strL "---" then .ok (t, r)
      else
        match titleMatch tl with
        | some cap => fmScan r (some cap)
        | none => fmScan r t

/-- The part of `parseFlowchart` after the optional front-matter block:
skip blank lines, demand the `flowchart <direction>` header, run the body
parser, and reject a stray root-level terminator. -/
def parseAfterFM (title : Option Str) (rest1 : List Str) : Except PErr Chart :=
  match rest1.dropWhile isBlank with
  | [] => .error errMissingDecl
  | h :: r3 =>
      let header := trim h
      match headerMatch header with
      | none => .error (errInvalidDecl header)
      | some dir =>
          let chart := Chart.new title dir
          let st0 : ParseState := ⟨0, [], none⟩
          match parseBodyAux (r3.length + 1) r3 chart st0 false false with
          | .error e => .error e
          | .ok (_, c, _, found) => if found then .error errRootEnd else .ok c

/-- `parseFlowchart` on the already-split line list. -/
def parseFlowchartLines (lines : List Str) : Except PErr Chart :=
  let rest0 := lines.dropWhile isBlank
  let fmRes : Except PErr (Option Str × List Str) :=
    match rest0 with
    | l :: r => if trim l = strL "---" then fmScan r none else .ok (none, rest0)
    | [] => .ok (none, rest0)
  match fmRes with
  | .error e => .error e
  | .ok (title, rest1) => parseAfterFM title rest1

mutual
/-- Number of link statements in a chart and all nested subgraphs. -/
def Chart.totalLinks : Chart → Nat
  | .mk _ _ _ ls ss _ _ _ => ls.length + totalLinksSubs ss

/-- Number of link statements in a list of subgraphs. -/
def totalLinksSubs : List Subgraph → Nat
  | [] => 0
  | .mk _ ch :: rest => Chart.totalLinks ch + totalLinksSubs rest
end

/-- A constant randomness oracle, used by witnesses. -/
def zeroRng : Nat → Nat := fun _ => 0

/-- A small sample subgraph used by witnesses. -/
def sampleSub : Subgraph :=
  .mk (some (strL "sg"))
    ((Chart.new (some (strL "t")) .LR).addLink
      ⟨Sum.inl (strL "a"), Sum.inl (strL "b"), none, .ARROW, none⟩)

/-- A sample link used by witnesses. -/
def wwLink : Link := ⟨Sum.inl (strL "a"), Sum.inl (strL "b"), none, .ARROW, none⟩

/-- A sample chart used by witnesses: one parsed link. -/
def wwChart : Chart := (Chart.new none .TD).addLink wwLink

/-- A sample parse state used by witnesses: one link registered at index 0. -/
def wwState : ParseState := ⟨1, [(0, wwLink)], some 0⟩

mutual
/-- Every sub-grouping of the tree carries a truthy explicit identifier or
a truthy title (so `Subgraph.getId` never reaches its random fallback). -/
def Chart.deterministicIds : Chart → Bool
  | .mk _ _ _ _ ss _ _ _ => subsDeterministicIds ss

/-- `deterministicIds` over a subgraph list. -/
def subsDeterministicIds : List Subgraph → Bool
  | [] => true
  | .mk idO ch :: rest =>
      (optTruthy idO || optTruthy (Chart.title ch)) && Chart.deterministicIds ch &&
        subsDeterministicIds rest
end

/-- Two raw lines that agree after trimming. -/
def trimEq (a b : Str) : Prop := trim a = trim b

/-- Relation between two body-parser results: equal outcomes, with the
remaining-line lists related pointwise by `trimEq`. -/
def ResultRel : Except PErr (List Str × Chart × ParseState × Bool) →
    Except PErr (List Str × Chart × ParseState × Bool) → Prop
  | .error e, .error e' => e = e'
  | .ok (rem, c, st, f), .ok (rem', c', st', f') =>
      List.Forall₂ trimEq rem rem' ∧ c = c' ∧ st = st' ∧ f = f'
  | _, _ => False

/-! ## Well-formedness and canonicalization (for the round-trip statement) -/

/-- No whitespace character occurs in the string. -/
def noWsB (s : Str) : Bool := s.all (fun c => !isWs c)

/-- No newline occurs in the string. -/
def noNLB (s : Str) : Bool := !s.contains '\n'

/-- The string is unchanged by trimming. -/
def trimmedB (s : Str) : Bool := trim s == s

/-- The string contains no occurrence of the class-separator token. -/
def sepFreeB (s : Str) : Bool := !(decide ((strL ":::") <:+: s))

/-- The string contains none of the three link-kind tokens. -/
def arrowFreeB (s : Str) : Bool :=
  !(decide ((strL "-->") <:+: s)) && !(decide ((strL "---") <:+: s)) &&
    !(decide ((strL "~~~") <:+: s))

/-- The string is non-empty and starts with a non-whitespace character. -/
def startsNonWs : Str → Bool
  | [] => false
  | c :: _ => !isWs c

/-- Syntactic safety of a node for the round trip: the (derived)
identifier is non-empty and of safe characters; the label carries no
newline, no class separator, and no shape-confusable bracketing for the
single-brace and plain-parenthesis shapes; a truthy class suffix is
trimmed, separator-free and does not begin with a colon; and the whole
emitted statement contains no link-kind token. -/
def wfNode (n : ChartNode) : Bool :=
  let m := n.ensureId
  m.id ≠ [] && m.id.all safeIdChar &&
  noLTB n.title && sepFreeB n.title &&
  (match n.shape with
   | .RHOMBUS => !(n.title.head? == some lbrace && n.title.getLast? == some rbrace)
   | .RECT_ROUND =>
       !(n.title.head? == some '(' && n.title.getLast? == some ')') &&
       !(n.title.head? == some '[' && n.title.getLast? == some ']')
   | _ => true) &&
  (match n.className with
   | none => true
   | some cls =>
       cls.isEmpty ||
       (trimmedB cls && noNLB cls && sepFreeB cls && !(cls.head? == some ':'))) &&
  arrowFreeB (ChartNode.toStr n)

/-- Syntactic safety of a link for the round trip. -/
def wfLink (l : Link) : Bool :=
  let s := resolveRef l.src
  let d := resolveRef l.dest
  !s.isEmpty && noWsB s && !d.isEmpty && noWsB d &&
  s ≠ strL "subgraph" && s ≠ strL "classDef" && s ≠ strL "class" &&
  !(d.head? == some '|') &&
  (match l.text with
   | none => true
   | some t => t.isEmpty || (noNLB t && !t.contains '|')) &&
  (if styleTruthy l.style then
     let sv := linkStyleText ((l.style).getD (Sum.inl []))
     !sv.isEmpty && trimmedB sv && noLTB sv
   else true)

/-- Syntactic safety of a class definition for the round trip. -/
def wfClassDef (d : ClassDef) : Bool :=
  let names := (match d.classNames with | Sum.inl s => s | Sum.inr l => joinComma l)
  let sv := (match d.style with | Sum.inl s => s | Sum.inr st => st.toStr)
  !names.isEmpty && noWsB names && !sv.isEmpty && trimmedB sv && noLTB sv

/-- Syntactic safety of a class attachment for the round trip. -/
def wfAttach (a : ClassAttachment) : Bool :=
  let ids := (match a.nodes with
    | Sum.inl r => resolveRef r
    | Sum.inr l => joinComma (l.map resolveRef))
  !ids.isEmpty && noWsB ids &&
  !(a.className).isEmpty && noWsB a.className && !(a.className).contains ';'

/-- Syntactic safety of a positional link-style override for the round
trip. -/
def wfPositional (p : Nat × LinkStyleV) : Bool :=
  trimmedB (linkStyleText p.2) && noLTB (linkStyleText p.2)

/-- Whether the identifier a subgraph header will use is non-empty. -/
def wfSubId (idO : Option Str) (t : Option Str) : Bool :=
  if optTruthy idO then noWsB (idO.getD []) && !(idO.getD []).contains '['
  else if optTruthy t then !((t.getD []).filter subIdChar).isEmpty
  else true

mutual
/-- Syntactic safety of a whole container tree for the round trip. -/
def wfChart : Chart → Bool
  | .mk t _ ns ls ss cd ca pl =>
      (match t with
       | none => true
       | some tt => tt.isEmpty || (trimmedB tt && noLTB tt)) &&
      ns.all wfNode && ls.all wfLink && cd.all wfClassDef && ca.all wfAttach &&
      pl.all wfPositional && wfSubs ss

/-- Syntactic safety of a subgraph list for the round trip. -/
def wfSubs : List Subgraph → Bool
  | [] => true
  | .mk idO ch :: rest =>
      wfSubId idO (Chart.title ch) &&
      (match Chart.title ch with
       | none => true
       | some tt => noLTB tt) &&
      wfChart ch && wfSubs rest
end

mutual
/-- Absence of the positional-vs-inline ambiguity: no container records a
positional override that, at parse time, immediately follows that
container's last link line and targets its running index while that link
carries no truthy style.  The `base` argument is the document-order link
counter at the entry of the container's body. -/
def noAmbigAux : Chart → Nat → Bool
  | .mk _ _ _ ls ss cd ca pl, base =>
      (match pl with
       | [] => true
       | (k, _) :: _ =>
           !(cd.isEmpty && ca.isEmpty && ss.isEmpty && !ls.isEmpty &&
             (k + 1 == base + ls.length) &&
             (match ls.getLast? with
              | some l => !styleTruthy l.style
              | none => false))) &&
      noAmbigSubs ss (base + ls.length)

/-- `noAmbigAux` over a subgraph list, threading the link counter. -/
def noAmbigSubs : List Subgraph → Nat → Bool
  | [], _ => true
  | .mk _ ch :: rest, base => noAmbigAux ch base && noAmbigSubs rest (base + Chart.totalLinks ch)
end

/-- The node the parser reconstructs from a node's printed statement. -/
def canonNode (n : ChartNode) : ChartNode :=
  let m := n.ensureId
  ⟨m.title, m.shape,
   m.id,
   match m.className with
   | some cls => if cls.isEmpty then none else some cls
   | none => none⟩

/-- The link the parser reconstructs from a link's printed statement and
its inline style line. -/
def canonLink (l : Link) : Link :=
  ⟨Sum.inl (resolveRef l.src), Sum.inl (resolveRef l.dest),
   (match l.text with
    | some t => if t.isEmpty then none else some t
    | none => none),
   l.type,
   if styleTruthy l.style then some (Sum.inl (linkStyleText ((l.style).getD (Sum.inl []))))
   else none⟩

/-- The class definition the parser reconstructs. -/
def canonClassDef (d : ClassDef) : ClassDef :=
  let names := (match d.classNames with | Sum.inl s => s | Sum.inr l => joinComma l)
  let sv := (match d.style with | Sum.inl s => s | Sum.inr st => st.toStr)
  ⟨if names.contains ',' then Sum.inr ((splitComma names).map trim) else Sum.inl names,
   Sum.inl (trim sv)⟩

/-- The class attachment the parser reconstructs. -/
def canonAttach (a : ClassAttachment) : ClassAttachment :=
  let ids := (match a.nodes with
    | Sum.inl r => resolveRef r
    | Sum.inr l => joinComma (l.map resolveRef))
  let parts := (splitComma ids).map trim
  ⟨match parts with
    | [p] => Sum.inl (Sum.inl p)
    | _ => Sum.inr (parts.map Sum.inl), a.className⟩

/-- The positional override the parser reconstructs. -/
def canonPositional (p : Nat × LinkStyleV) : Nat × LinkStyleV :=
  (p.1, Sum.inl (linkStyleText p.2))

mutual
/-- The container the parser reconstructs from the printed text, with the
given title field; the oracle is threaded exactly as in printing, so the
identifiers of sub-groupings match the printed ones. -/
def canonChartAux : Chart → Option Str → (Nat → Nat) → Nat → Chart × Nat
  | .mk _ d ns ls ss cd ca pl, newTitle, rng, rp =>
      let cs := canonSubs ss rng rp
      (.mk newTitle d (ns.map canonNode) (ls.map canonLink) cs.1 (cd.map canonClassDef)
         (ca.map canonAttach) (pl.map canonPositional), cs.2)

/-- `canonChartAux` over a subgraph list. -/
def canonSubs : List Subgraph → (Nat → Nat) → Nat → List Subgraph × Nat
  | [], _, rp => ([], rp)
  | .mk idO ch :: rest, rng, rp =>
      let gi := subgraphGetId idO (Chart.title ch) rng rp
      let cc := canonChartAux ch
        (some (if optTruthy (Chart.title ch) then (Chart.title ch).getD [] else [])) rng gi.2
      let tl := canonSubs rest rng cc.2
      (.mk (some gi.1) cc.1 :: tl.1, tl.2)
end

/-- The link object the parser constructs from a link statement (before
any inline style attachment). -/
def canonParsedLink (l : Link) : Link :=
  ⟨Sum.inl (resolveRef l.src), Sum.inl (resolveRef l.dest),
   (match l.text with
    | some t => if t.isEmpty then none else some t
    | none => none), l.type, none⟩

/-- The parse state after the link statements of one container (each link
registers itself; a truthy style updates the just-registered binding). -/
def stAfterLinks : List Link → ParseState → ParseState
  | [], st => st
  | l :: rest, st =>
      let st1 : ParseState := ⟨st.nextLinkIndex + 1,
        mapSet st.linksByIndex st.nextLinkIndex (canonParsedLink l), some st.nextLinkIndex⟩
      let st2 : ParseState := if styleTruthy l.style then
          { st1 with linksByIndex := st1.linksByIndex.map (fun p =>
              if p.1 = st.nextLinkIndex then
                (p.1, { p.2 with style := some (Sum.inl (linkStyleText
                  ((l.style).getD (Sum.inl [])))) })
              else p) }
        else st1
      stAfterLinks rest st2

mutual
/-- The parse state after a whole printed body. -/
def stAfterChart : Chart → ParseState → ParseState
  | .mk _ _ _ ls ss _ _ _, st => stAfterSubs ss (stAfterLinks ls st)

/-- The parse state after a list of printed subgraph blocks. -/
def stAfterSubs : List Subgraph → ParseState → ParseState
  | [], st => st
  | .mk _ ch :: rest, st => stAfterSubs rest (stAfterChart ch st)
end

/-- `noLTB` as a membership statement. -/
theorem noLTB_iff (s : Str) : noLTB s = true ↔ ∀ c ∈ s, isLineTerm c = false := by
  unfold noLTB
  simp [List.all_eq_true]

/-- A string without line terminators has no newline. -/
theorem noLTB_noNLB (s : Str) (h : noLTB s = true) : noNLB s = true := by
  unfold noNLB
  by_cases hm : '\n' ∈ s
  · exact absurd ((noLTB_iff s).mp h '\n' hm) (by decide)
  · simp [List.contains, hm]

/-- `noLTB` distributes over append. -/
theorem noLTB_append (a b : Str) : noLTB (a ++ b) = (noLTB a && noLTB b) := by
  simp [noLTB, List.all_append]

/-- Each shape's delimiters are free of line terminators, so wrapping a
terminator-free label keeps the rendered remainder terminator-free. -/
theorem noLTB_delim (sh : NodeShape) (t : Str) (h : noLTB t = true) :
    noLTB (sh.openD ++ t ++ sh.closeD) = true := by
  rw [noLTB_append, noLTB_append, h]
  cases sh <;> decide

/-- The counter returned by the link loop advances by one per link. -/
theorem printLinks_snd (ls : List Link) (ind : Str) (k : Nat) :
    (printLinks ls ind k).2 = k + ls.length := by
  induction ls generalizing k with
  | nil => simp [printLinks]
  | cons l rest ih => simp [printLinks, ih]; omega

/-- A line with no occurrence of `:::` has no class-separator index. -/
theorem lastSepIdx_eq_none (l : Str) (h : ¬ (strL ":::") <:+: l) : lastSepIdx l = none := by
  unfold lastSepIdx
  rw [List.getLast?_eq_none_iff, List.filter_eq_nil_iff]
  intro i _ hpre
  exact h (List.infix_iff_prefix_suffix.mpr
    ⟨l.drop i, List.isPrefixOf_iff_prefix.mp hpre, List.drop_suffix i l⟩)

/-- `takeWhile` over a safe prefix followed by an unsafe character. -/
theorem takeWhile_of_all_not {p : Char → Bool} (a r : Str)
    (ha : ∀ c ∈ a, p c) (hr : ∀ c, r.head? = some c → ¬ p c) :
    (a ++ r).takeWhile p = a := by
  rw [List.takeWhile_append]
  have h1 : a.takeWhile p = a := List.takeWhile_eq_self_iff.mpr ha
  rw [h1, if_pos rfl]
  cases r with
  | nil => simp
  | cons c r' =>
      have := hr c rfl
      simp [List.takeWhile, this]

/-- `matchDelim` on an exactly-delimited string recovers the middle. -/
theorem matchDelim_exact (op cl s : Str) : matchDelim op cl (op ++ s ++ cl) = some s := by
  unfold matchDelim
  rw [if_pos]
  · congr 1
    have h1 : (op ++ s ++ cl).drop op.length = s ++ cl := by
      rw [List.append_assoc]; exact List.drop_left op (s ++ cl)
    rw [h1]
    have h2 : (op ++ s ++ cl).length - op.length - cl.length = s.length := by
      simp [List.length_append]
    rw [h2]
    exact List.take_left s cl
  · refine ⟨?_, ?_, ?_⟩
    · exact List.isPrefixOf_iff_prefix.mpr ⟨s ++ cl, by simp⟩
    · exact List.isSuffixOf_iff_suffix.mpr ⟨op ++ s, by simp⟩
    · simp [List.length_append]

/-- `totalLinksSubs` of a cons, via the `toChart` projection. -/
theorem totalLinksSubs_cons (s : Subgraph) (rest : List Subgraph) :
    totalLinksSubs (s :: rest) = Chart.totalLinks s.toChart + totalLinksSubs rest := by
  obtain ⟨idO, ch⟩ := s
  simp [totalLinksSubs, Subgraph.toChart]

/-- The link counter returned by `Chart.printBody` advances by the total
number of links of the subtree (strong induction on size, covering the
mutual recursion with `printSubgraphList` and `Subgraph.print`). -/
theorem printBody_counter_aux :
    ∀ n : Nat, ∀ c : Chart, sizeOf c ≤ n → ∀ (ind : Str) (k : Nat) (rng : Nat → Nat) (rp : Nat),
      (Chart.printBody c ind k rng rp).2.1 = k + Chart.totalLinks c := by
  intro n
  induction n using Nat.strong_induction_on with
  | _ n IH =>
    intro c hc ind k rng rp
    obtain ⟨t, d, ns, ls, ss, cd, ca, pl⟩ := c
    have hszss : sizeOf ss < n := by
      have : sizeOf ss < sizeOf (Chart.mk t d ns ls ss cd ca pl) := by
        simp [Chart.mk.sizeOf_spec]; omega
      omega
    have hsubs : ∀ ss' : List Subgraph, sizeOf ss' < n → ∀ (ind' : Str) (k' : Nat)
        (rng' : Nat → Nat) (rp' : Nat),
        (printSubgraphList ss' ind' k' rng' rp').2.1 = k' + totalLinksSubs ss' := by
      intro ss'
      induction ss' with
      | nil => intro _ ind' k' rng' rp'; simp [printSubgraphList, totalLinksSubs]
      | cons s rest ihr =>
        intro hsz ind' k' rng' rp'
        obtain ⟨idO, ch⟩ := s
        have hch : sizeOf ch < n := by
          have h1 : sizeOf ch < sizeOf (Subgraph.mk idO ch) := by
            simp [Subgraph.mk.sizeOf_spec]
          have h2 : sizeOf (Subgraph.mk idO ch) < sizeOf (Subgraph.mk idO ch :: rest) := by
            simp; omega
          omega
        have hrest : sizeOf rest < n := by
          have : sizeOf rest < sizeOf (Subgraph.mk idO ch :: rest) := by simp
          omega
        have hbody := IH (sizeOf ch) hch ch (le_refl _)
        simp only [printSubgraphList, Subgraph.print]
        rw [hbody, ihr hrest, totalLinksSubs_cons]
        simp [Subgraph.toChart]
        omega
    simp only [Chart.printBody]
    rw [printLinks_snd, hsubs ss hszss]
    simp [Chart.totalLinks]
    omega

/-- The link counter returned by `Chart.printBody`. -/
theorem printBody_counter (c : Chart) (ind : Str) (k : Nat) (rng : Nat → Nat) (rp : Nat) :
    (Chart.printBody c ind k rng rp).2.1 = k + Chart.totalLinks c :=
  printBody_counter_aux (sizeOf c) c (le_refl _) ind k rng rp

/-- The link counter returned by `Subgraph.print`. -/
theorem subPrint_counter (s : Subgraph) (ind : Str) (k : Nat) (rng : Nat → Nat) (rp : Nat) :
    (Subgraph.print s ind k rng rp).2.1 = k + Chart.totalLinks s.toChart := by
  obtain ⟨idO, ch⟩ := s
  simp only [Subgraph.print, Subgraph.toChart]
  rw [printBody_counter]

/-- The link counter returned by `printSubgraphList`. -/
theorem printSubgraphList_counter (ss : List Subgraph) (ind : Str) (k : Nat)
    (rng : Nat → Nat) (rp : Nat) :
    (printSubgraphList ss ind k rng rp).2.1 = k + totalLinksSubs ss := by
  induction ss generalizing k rp with
  | nil => simp [printSubgraphList, totalLinksSubs]
  | cons s rest ih =>
    simp only [printSubgraphList]
    rw [subPrint_counter, ih, totalLinksSubs_cons]
    omega

/-- The chunk emitted for the `i`-th subgraph is its own `print` at the
counter advanced past all earlier siblings' subtrees. -/
theorem printSubgraphList_chunk (ss : List Subgraph) :
    ∀ (ind : Str) (k : Nat) (rng : Nat → Nat) (rp : Nat) (i : Nat) (h : i < ss.length),
      ∃ rpI, (printSubgraphList ss ind k rng rp).1[i]? =
        some (Subgraph.print (ss.get ⟨i, h⟩) ind (k + totalLinksSubs (ss.take i)) rng rpI).1 := by
  induction ss with
  | nil => intro _ _ _ _ i h; exact absurd h (by simp)
  | cons s rest ih =>
    intro ind k rng rp i h
    cases i with
    | zero =>
      refine ⟨rp, ?_⟩
      simp [printSubgraphList, totalLinksSubs]
    | succ j =>
      have hj : j < rest.length := by
        simp only [List.length_cons] at h; omega
      obtain ⟨rpI, hr⟩ := ih ind (k + Chart.totalLinks s.toChart)
        rng (Subgraph.print s ind k rng rp).2.2 j hj
      refine ⟨rpI, ?_⟩
      simp only [printSubgraphList, List.getElem?_cons_succ, List.get_cons_succ,
        List.take_succ_cons, totalLinksSubs_cons, subPrint_counter]
      rw [← Nat.add_assoc]
      exact hr

/-- C2: the serializer threads one global link counter: `Chart.printBody`
returns the counter advanced past all links of the subtree; each
`Subgraph.print` recursive call does the same; and the chunk emitted for
the `i`-th owned sub-grouping is its serialization called with the current
running counter, that is, the incoming counter advanced past the links of
the chart's own link section and of all earlier sub-groupings, in
insertion order. -/
theorem C2_counter_threading :
    (∀ (c : Chart) (ind : Str) (k : Nat) (rng : Nat → Nat) (rp : Nat),
       (Chart.printBody c ind k rng rp).2.1 = k + Chart.totalLinks c) ∧
    (∀ (s : Subgraph) (ind : Str) (k : Nat) (rng : Nat → Nat) (rp : Nat),
       (Subgraph.print s ind k rng rp).2.1 = k + Chart.totalLinks s.toChart) ∧
    (∀ (ss : List Subgraph) (ind : Str) (k : Nat) (rng : Nat → Nat) (rp : Nat)
       (i : Nat) (h : i < ss.length),
       ∃ rpI, (printSubgraphList ss ind k rng rp).1[i]? =
         some (Subgraph.print (ss.get ⟨i, h⟩) ind (k + totalLinksSubs (ss.take i)) rng rpI).1) :=
  ⟨printBody_counter, subPrint_counter, printSubgraphList_chunk⟩

/-- Witness for C2 at a concrete subgraph list. -/
theorem C2_counter_threading_witness :
    (0 : Nat) < [sampleSub].length ∧
    ∃ rpI, (printSubgraphList [sampleSub] [] 5 zeroRng 0).1[0]? =
      some (Subgraph.print (([sampleSub]).get ⟨0, by decide⟩) []
        (5 + totalLinksSubs ([sampleSub].take 0)) zeroRng rpI).1 :=
  ⟨by decide, C2_counter_threading.2.2 [sampleSub] [] 5 zeroRng 0 0 (by decide)⟩

/-- C4: closed form of the serializer's link loop: each link contributes
its own line followed by a `linkStyle <index> <style>;` line exactly when
its style is truthy, the emitted index is the running counter value for
that link (`k + i` for the `i`-th link), and the counter advances by
exactly one per link whether or not a style line was emitted. -/
theorem C4_link_style_emission (links : List Link) (ind : Str) (k : Nat) :
    printLinks links ind k =
      (((List.enumFrom k links).map fun p =>
          (ind ++ Link.toStr p.2) ::
            (if styleTruthy p.2.style then [ind ++ Link.printStyle p.2 p.1] else [])).flatten,
       k + links.length) := by
  induction links generalizing k with
  | nil => simp [printLinks]
  | cons l rest ih =>
      simp only [printLinks, ih (k + 1), List.enumFrom, List.map_cons, List.flatten_cons]
      rw [Prod.ext_iff]
      constructor
      · simp
      · simp; omega

/-- C6: for every node constructed without an explicit identifier, the
identifier lookup returns the label with every character outside
`[A-Za-z0-9\-_!#$]` removed, and a repeated lookup returns the same
identifier and leaves the cached state unchanged. -/
theorem C6_derived_identifier (n : ChartNode) (h : n.id = []) :
    n.getId.1 = n.title.filter safeIdChar ∧ n.getId.2.getId = n.getId := by
  by_cases ht : n.title = []
  · constructor
    · simp [ChartNode.getId, ChartNode.ensureId, h, ht]
    · simp [ChartNode.getId, ChartNode.ensureId, ht]
  · constructor
    · simp [ChartNode.getId, ChartNode.ensureId, h, ht]
    · by_cases hf : n.title.filter safeIdChar = []
      · simp [ChartNode.getId, ChartNode.ensureId, h, ht, hf]
      · simp [ChartNode.getId, ChartNode.ensureId, h, ht, hf]

/-- Witness for C6 at a concrete label. -/
theorem C6_derived_identifier_witness :
    (ChartNode.mk (strL "my node!") .RECT_ROUND [] none).id = [] ∧
    ((ChartNode.mk (strL "my node!") .RECT_ROUND [] none).getId.1 =
       (ChartNode.mk (strL "my node!") .RECT_ROUND [] none).title.filter safeIdChar ∧
     (ChartNode.mk (strL "my node!") .RECT_ROUND [] none).getId.2.getId =
       (ChartNode.mk (strL "my node!") .RECT_ROUND [] none).getId) :=
  ⟨rfl, C6_derived_identifier (ChartNode.mk (strL "my node!") .RECT_ROUND [] none) rfl⟩

/-- C5 counterexample: for the label content `a:::b` (which contains the
class-separator token), the double-brace node statement with identifier
`n` does not parse as the double-brace shape with that label:
`parseNodeLine` splits at the rightmost `:::` first and then fails
entirely. -/
theorem C5_counterexample :
    parseNodeLine (strL "n" ++ NodeShape.HEXAGON.render (strL "a:::b")) = none ∧
    parseNodeLine (strL "n" ++ NodeShape.HEXAGON.render (strL "a:::b")) ≠
      some ⟨strL "a:::b", .HEXAGON, strL "n", none⟩ := by
  constructor
  · rfl
  · decide

/-- C5 (amended): for every label content `s` — including contents
containing a closing brace — as long as `s` contains no line terminator
(the dot of the id pattern matches no line terminator) and the assembled
statement contains no occurrence of the class-separator token `:::`, a
node statement whose label token is bracketed by double braces parses as
the double-brace (hexagon) shape with label `s`, never as the
single-brace shape; the shape candidates are tested most-specific
first. -/
theorem C5_hexagon_priority (id s : Str) (hid : id ≠ [])
    (hsafe : ∀ c ∈ id, safeIdChar c)
    (hsep : ¬ (strL ":::") <:+: (id ++ NodeShape.HEXAGON.render s))
    (hnlt : noLTB s = true) :
    parseNodeLine (id ++ NodeShape.HEXAGON.render s) = some ⟨s, .HEXAGON, id, none⟩ := by
  have hline : id ++ NodeShape.HEXAGON.render s =
      id ++ ([lbrace, lbrace] ++ s ++ [rbrace, rbrace]) := by
    simp [NodeShape.render, NodeShape.openD, NodeShape.closeD]
  unfold parseNodeLine
  rw [lastSepIdx_eq_none _ hsep]
  simp only
  have htw : (id ++ NodeShape.HEXAGON.render s).takeWhile safeIdChar = id := by
    rw [hline]
    refine takeWhile_of_all_not id _ hsafe ?_
    intro c hc
    simp only [List.cons_append, List.head?_cons] at hc
    cases hc
    decide
  have hdrop : (id ++ NodeShape.HEXAGON.render s).drop id.length = NodeShape.HEXAGON.render s :=
    List.drop_left id _
  rw [htw, if_neg hid]
  rw [show (id ++ NodeShape.HEXAGON.render s).drop id.length = NodeShape.HEXAGON.render s from
    hdrop]
  have hne : NodeShape.HEXAGON.render s ≠ [] := by
    simp [NodeShape.render, NodeShape.openD]
  rw [if_neg hne]
  have hnr : noLTB (NodeShape.HEXAGON.render s) = true := by
    have := noLTB_delim .HEXAGON s hnlt
    simpa [NodeShape.render] using this
  rw [if_pos hnr]
  have hdelim : matchDelim NodeShape.HEXAGON.openD NodeShape.HEXAGON.closeD
      (NodeShape.HEXAGON.render s) = some s := by
    have := matchDelim_exact NodeShape.HEXAGON.openD NodeShape.HEXAGON.closeD s
    simpa [NodeShape.render] using this
  simp [matchShape, shapeCandidates, hdelim]

/-- Witness for C5 (amended) at a label containing a closing brace. -/
theorem C5_hexagon_priority_witness :
    ((strL "n1") ≠ [] ∧ (∀ c ∈ strL "n1", safeIdChar c) ∧
      ¬ (strL ":::") <:+: (strL "n1" ++ NodeShape.HEXAGON.render (strL "a\x7db")) ∧
      noLTB (strL "a\x7db") = true) ∧
    parseNodeLine (strL "n1" ++ NodeShape.HEXAGON.render (strL "a\x7db")) =
      some ⟨strL "a\x7db", .HEXAGON, strL "n1", none⟩ :=
  ⟨⟨by decide, by decide, by decide, by decide⟩,
    C5_hexagon_priority (strL "n1") (strL "a\x7db") (by decide) (by decide) (by decide)
      (by decide)⟩

/-- A line recognized by `linkStyleMatch` begins with the `linkStyle`
keyword. -/
theorem linkStyleMatch_shape (l : Str) (x : Nat × Str) (h : linkStyleMatch l = some x) :
    ∃ t, l = strL "linkStyle" ++ t := by
  unfold linkStyleMatch stripKw at h
  by_cases hp : (strL "linkStyle").isPrefixOf l
  · exact ⟨l.drop (strL "linkStyle").length,
      by rw [(List.prefix_iff_eq_append).mp (List.isPrefixOf_iff_prefix.mp hp)]⟩
  · simp [hp] at h

/-- A `linkStyle` line is not blank, not the terminator, and matches none
of the three earlier statement patterns. -/
theorem linkStyle_not_earlier (t : Str) :
    strL "linkStyle" ++ t ≠ [] ∧ strL "linkStyle" ++ t ≠ strL "end" ∧
    subgraphMatch (strL "linkStyle" ++ t) = none ∧
    classDefMatch (strL "linkStyle" ++ t) = none ∧
    classAttachMatch (strL "linkStyle" ++ t) = none := by
  refine ⟨by simp [strL], ?_, ?_, ?_, ?_⟩
  · intro h
    have h2 : 'l' :: (strL "inkStyle" ++ t) = 'e' :: strL "nd" := h
    injection h2 with h3 h4
    exact absurd h3 (by decide)
  · have hp : ((strL "subgraph").isPrefixOf (strL "linkStyle" ++ t)) = false := rfl
    simp [subgraphMatch, stripKw, hp]
  · have hp : ((strL "classDef").isPrefixOf (strL "linkStyle" ++ t)) = false := rfl
    simp [classDefMatch, stripKw, hp]
  · have hp : ((strL "class").isPrefixOf (strL "linkStyle" ++ t)) = false := rfl
    simp [classAttachMatch, stripKw, hp]

/-- One step of the body parser on a `linkStyle` line: the inline branch
is taken exactly when the boolean condition of the source holds. -/
theorem parseBodyAux_step_linkStyle (fuel : Nat) (rawLine : Str) (rest : List Str)
    (chart : Chart) (st : ParseState) (stopOnEnd lastWasLink : Bool) (k : Nat) (cap : Str)
    (hm : linkStyleMatch (trim rawLine) = some (k, cap)) :
    parseBodyAux (fuel + 1) (rawLine :: rest) chart st stopOnEnd lastWasLink =
      (if (lastWasLink && st.lastParsedLinkIndex == some k &&
            (match mapGet st.linksByIndex k with
             | some l => !styleTruthy l.style
             | none => false)) then
        parseBodyAux fuel rest (chart.setLastLinkStyle (Sum.inl (dropSemi (trim cap))))
          { st with linksByIndex := st.linksByIndex.map (fun p =>
              if p.1 = k then (p.1, { p.2 with style := some (Sum.inl (dropSemi (trim cap))) })
              else p) } stopOnEnd false
      else
        parseBodyAux fuel rest (chart.addPositionalLinkStyle k (Sum.inl (dropSemi (trim cap))))
          st stopOnEnd false) := by
  obtain ⟨t, ht⟩ := linkStyleMatch_shape _ _ hm
  obtain ⟨hne, hnend, hsg, hcd, hca⟩ := linkStyle_not_earlier t
  rw [← ht] at hne hnend hsg hcd hca
  simp only [parseBodyAux, hne, hnend, hsg, hcd, hca, hm, if_neg]
  simp [hne, hnend]

/-- The boolean inline condition, as the proposition of the claim. -/
theorem inline_cond_iff (lastWasLink : Bool) (st : ParseState) (k : Nat) :
    (lastWasLink && st.lastParsedLinkIndex == some k &&
      (match mapGet st.linksByIndex k with
       | some l => !styleTruthy l.style
       | none => false)) = true ↔
    (lastWasLink = true ∧ st.lastParsedLinkIndex = some k ∧
      ∃ l, mapGet st.linksByIndex k = some l ∧ styleTruthy l.style = false) := by
  cases hmg : mapGet st.linksByIndex k with
  | none => simp [hmg]
  | some l =>
      simp [hmg, Bool.and_eq_true, and_assoc]

/-- C3: during parsing, a `linkStyle <index> <style>` line is attached
inline to the most recently parsed link — the link registered under the
matched index, which the step mutates to carry the style — if and only if
the immediately preceding statement of the current body was a link
(`lastWasLink`), that link's assigned running index equals the matched
index, and that link does not already carry a (truthy) style; in every
other case the style is recorded as a positional override on the container
currently being parsed. -/
theorem C3_linkstyle_disambiguation (fuel : Nat) (rawLine : Str) (rest : List Str)
    (chart : Chart) (st : ParseState) (stopOnEnd lastWasLink : Bool) (k : Nat) (cap : Str)
    (hm : linkStyleMatch (trim rawLine) = some (k, cap)) :
    ((lastWasLink = true ∧ st.lastParsedLinkIndex = some k ∧
        ∃ l, mapGet st.linksByIndex k = some l ∧ styleTruthy l.style = false) →
      parseBodyAux (fuel + 1) (rawLine :: rest) chart st stopOnEnd lastWasLink =
        parseBodyAux fuel rest (chart.setLastLinkStyle (Sum.inl (dropSemi (trim cap))))
          { st with linksByIndex := st.linksByIndex.map (fun p =>
              if p.1 = k then (p.1, { p.2 with style := some (Sum.inl (dropSemi (trim cap))) })
              else p) } stopOnEnd false) ∧
    (¬ (lastWasLink = true ∧ st.lastParsedLinkIndex = some k ∧
        ∃ l, mapGet st.linksByIndex k = some l ∧ styleTruthy l.style = false) →
      parseBodyAux (fuel + 1) (rawLine :: rest) chart st stopOnEnd lastWasLink =
        parseBodyAux fuel rest
          (chart.addPositionalLinkStyle k (Sum.inl (dropSemi (trim cap)))) st stopOnEnd false) := by
  constructor
  · intro hc
    rw [parseBodyAux_step_linkStyle fuel rawLine rest chart st stopOnEnd lastWasLink k cap hm,
      if_pos ((inline_cond_iff lastWasLink st k).mpr hc)]
  · intro hc
    rw [parseBodyAux_step_linkStyle fuel rawLine rest chart st stopOnEnd lastWasLink k cap hm,
      if_neg ?_]
    intro hb
    exact hc ((inline_cond_iff lastWasLink st k).mp hb)

/-- Witness for C3 at a concrete inline attachment. -/
theorem C3_linkstyle_disambiguation_witness :
    (linkStyleMatch (trim (strL "linkStyle 0 abc;")) = some (0, strL "abc;")) ∧
    parseBodyAux 2 [strL "linkStyle 0 abc;"] wwChart wwState false true =
      parseBodyAux 1 [] (wwChart.setLastLinkStyle (Sum.inl (dropSemi (trim (strL "abc;")))))
        { wwState with linksByIndex := wwState.linksByIndex.map (fun p =>
            if p.1 = 0 then
              (p.1, { p.2 with style := some (Sum.inl (dropSemi (trim (strL "abc;")))) })
            else p) } false false :=
  ⟨rfl, (C3_linkstyle_disambiguation 1 (strL "linkStyle 0 abc;") [] wwChart wwState
      false true 0 (strL "abc;") rfl).1 ⟨rfl, rfl, ⟨wwLink, rfl, rfl⟩⟩⟩

/-- A line recognized by `headerMatch` begins with the `flowchart` keyword. -/
theorem headerMatch_shape (l : Str) (d : ChartDir) (h : headerMatch l = some d) :
    ∃ t, l = strL "flowchart" ++ t := by
  unfold headerMatch stripKw at h
  by_cases hp : (strL "flowchart").isPrefixOf l
  · exact ⟨l.drop (strL "flowchart").length,
      by rw [(List.prefix_iff_eq_append).mp (List.isPrefixOf_iff_prefix.mp hp)]⟩
  · simp [hp] at h

/-- A non-blank line survives the blank-line filter. -/
theorem isBlank_false_of_trim_ne (l : Str) (h : trim l ≠ []) : isBlank l = false := by
  simp [isBlank, h]

/-- Reduction of `parseFlowchartLines` on a document with no front matter:
the header line is matched and the body parser is run on the rest. -/
theorem parseFlowchartLines_header (d : ChartDir) (hdr : Str) (body : List Str)
    (hh : headerMatch (trim hdr) = some d) :
    parseFlowchartLines (hdr :: body) =
      (match parseBodyAux (body.length + 1) body (Chart.new none d) ⟨0, [], none⟩ false false with
       | .error e => .error e
       | .ok (_, c, _, found) => if found then .error errRootEnd else .ok c) := by
  obtain ⟨t, ht⟩ := headerMatch_shape _ _ hh
  have hne : trim hdr ≠ [] := by rw [ht]; simp [strL]
  have hfm : trim hdr ≠ strL "---" := by
    rw [ht]
    intro h
    have h2 : 'f' :: (strL "lowchart" ++ t) = '-' :: strL "--" := h
    injection h2 with h3 h4
    exact absurd h3 (by decide)
  have hblank : isBlank hdr = false := isBlank_false_of_trim_ne hdr hne
  simp only [parseFlowchartLines, List.dropWhile_cons, hblank, hfm, hh]
  simp only [Bool.false_eq_true, if_neg, if_false]
  simp only [parseAfterFM, List.dropWhile_cons, hblank, hfm, hh]
  simp [hblank, hfm, hh]

/-- C8: the body parser, at any nesting level and regardless of the
stop-on-end flag, reports an `end` line to its caller by returning with the
found-end flag set; and whenever the top-level body run reports that flag,
the top-level caller fails with the unexpected-terminator error. -/
theorem C8_root_end :
    (∀ (fuel : Nat) (endLine : Str) (rest : List Str) (chart : Chart) (st : ParseState)
       (stopOnEnd lastWasLink : Bool), trim endLine = strL "end" →
       parseBodyAux (fuel + 1) (endLine :: rest) chart st stopOnEnd lastWasLink =
         .ok (rest, chart, st, true)) ∧
    (∀ (d : ChartDir) (hdr : Str) (body : List Str) (rem : List Str) (chart : Chart)
       (st : ParseState),
       headerMatch (trim hdr) = some d →
       parseBodyAux (body.length + 1) body (Chart.new none d) ⟨0, [], none⟩ false false =
         .ok (rem, chart, st, true) →
       parseFlowchartLines (hdr :: body) = .error errRootEnd) := by
  constructor
  · intro fuel endLine rest chart st stopOnEnd lastWasLink h
    have hne : trim endLine ≠ [] := by rw [h]; simp [strL]
    simp only [parseBodyAux, h, hne]
    simp [hne, strL]
  · intro d hdr body rem chart st hh hrun
    rw [parseFlowchartLines_header d hdr body hh, hrun]
    simp

/-- Witness for C8 at a concrete document. -/
theorem C8_root_end_witness :
    (trim (strL "  end ") = strL "end" ∧
     parseBodyAux 1 [strL "  end "] wwChart wwState false true =
       .ok ([], wwChart, wwState, true)) ∧
    (headerMatch (trim (strL "flowchart TD")) = some ChartDir.TD ∧
     parseFlowchartLines [strL "flowchart TD", strL "end"] = .error errRootEnd) :=
  ⟨⟨rfl, C8_root_end.1 0 (strL "  end ") [] wwChart wwState false true rfl⟩,
   ⟨rfl, C8_root_end.2 ChartDir.TD (strL "flowchart TD") [strL "end"] []
      (Chart.new none ChartDir.TD) ⟨0, [], none⟩ rfl rfl⟩⟩

/-- `subgraphGetId` ignores the oracle when an identifier or title is
truthy. -/
theorem subgraphGetId_det (idO title : Option Str) (rng1 rng2 : Nat → Nat) (rp1 rp2 : Nat)
    (h : (optTruthy idO || optTruthy title) = true) :
    (subgraphGetId idO title rng1 rp1).1 = (subgraphGetId idO title rng2 rp2).1 := by
  unfold subgraphGetId
  by_cases h1 : optTruthy idO
  · simp [h1]
  · have h2 : optTruthy title = true := by
      rcases Bool.or_eq_true_iff.mp h with h3 | h3
      · exact absurd h3 h1
      · exact h3
    simp [h1, h2]

/-- The emitted text of `Chart.printBody` does not depend on the oracle
when every sub-grouping has a truthy identifier or title. -/
theorem printBody_det_aux :
    ∀ n : Nat, ∀ c : Chart, sizeOf c ≤ n → Chart.deterministicIds c = true →
      ∀ (ind : Str) (k : Nat) (rng1 : Nat → Nat) (rp1 : Nat) (rng2 : Nat → Nat) (rp2 : Nat),
      (Chart.printBody c ind k rng1 rp1).1 = (Chart.printBody c ind k rng2 rp2).1 := by
  intro n
  induction n using Nat.strong_induction_on with
  | _ n IH =>
    intro c hc hdet ind k rng1 rp1 rng2 rp2
    obtain ⟨t, d, ns, ls, ss, cd, ca, pl⟩ := c
    have hszss : sizeOf ss < n := by
      have : sizeOf ss < sizeOf (Chart.mk t d ns ls ss cd ca pl) := by
        simp [Chart.mk.sizeOf_spec]; omega
      omega
    have hdss : subsDeterministicIds ss = true := by
      simpa [Chart.deterministicIds] using hdet
    have hsubs : ∀ ss' : List Subgraph, sizeOf ss' < n → subsDeterministicIds ss' = true →
        ∀ (ind' : Str) (k' : Nat) (rng1' : Nat → Nat) (rp1' : Nat) (rng2' : Nat → Nat)
          (rp2' : Nat),
        (printSubgraphList ss' ind' k' rng1' rp1').1 =
          (printSubgraphList ss' ind' k' rng2' rp2').1 := by
      intro ss'
      induction ss' with
      | nil => intro _ _ ind' k' rng1' rp1' rng2' rp2'; simp [printSubgraphList]
      | cons s rest ihr =>
        intro hsz hdet' ind' k' rng1' rp1' rng2' rp2'
        obtain ⟨idO, ch⟩ := s
        have hch : sizeOf ch < n := by
          have h1 : sizeOf ch < sizeOf (Subgraph.mk idO ch) := by
            simp [Subgraph.mk.sizeOf_spec]
          have h2 : sizeOf (Subgraph.mk idO ch) < sizeOf (Subgraph.mk idO ch :: rest) := by
            simp; omega
          omega
        have hrest : sizeOf rest < n := by
          have : sizeOf rest < sizeOf (Subgraph.mk idO ch :: rest) := by simp
          omega
        obtain ⟨hd1, hd2, hd3⟩ : (optTruthy idO || optTruthy (Chart.title ch)) = true ∧
            Chart.deterministicIds ch = true ∧ subsDeterministicIds rest = true := by
          have := hdet'
          simp only [subsDeterministicIds, Bool.and_eq_true] at this
          exact ⟨this.1.1, this.1.2, this.2⟩
        have hbody := IH (sizeOf ch) hch ch (le_refl _) hd2 (ind' ++ strL "  ") k'
          rng1' (subgraphGetId idO (Chart.title ch) rng1' rp1').2
          rng2' (subgraphGetId idO (Chart.title ch) rng2' rp2').2
        simp only [printSubgraphList, Subgraph.print]
        rw [List.cons.injEq]
        constructor
        · unfold joinLines
          rw [subgraphGetId_det idO (Chart.title ch) rng1' rng2' rp1' rp2' hd1, hbody]
        · rw [printBody_counter, printBody_counter]
          exact ihr hrest hd3 ind' _ rng1' _ rng2' _
    simp only [Chart.printBody]
    rw [hsubs ss hszss hdss ind (printLinks ls ind k).2 rng1 rp1 rng2 rp2]

/-- C9: for every container tree in which each sub-grouping has a truthy
explicit identifier or a truthy title, serialization is deterministic: the
emitted text does not depend on the randomness oracle, so two serializer
runs on equal trees produce identical text.  (Only the fallback for a
sub-grouping with neither introduces a random numeric suffix.) -/
theorem C9_deterministic_serialization (c : Chart) (h : Chart.deterministicIds c = true)
    (rng1 rng2 : Nat → Nat) : Chart.toStr c rng1 = Chart.toStr c rng2 := by
  unfold Chart.toStr Chart.print
  simp only
  unfold joinLines
  rw [printBody_det_aux (sizeOf c) c (le_refl _) h ([] ++ strL "  ") 0 rng1 0 rng2 0]

/-- Witness for C9 at a concrete chart with a titled sub-grouping and two
different oracles. -/
theorem C9_deterministic_serialization_witness :
    Chart.deterministicIds ((Chart.new none .TD).addSubgraph sampleSub) = true ∧
    Chart.toStr ((Chart.new none .TD).addSubgraph sampleSub) (fun _ => 3) =
      Chart.toStr ((Chart.new none .TD).addSubgraph sampleSub) (fun _ => 7) :=
  ⟨by decide, C9_deterministic_serialization ((Chart.new none .TD).addSubgraph sampleSub)
    (by decide) (fun _ => 3) (fun _ => 7)⟩

/-- `trimEq` lines agree on blankness. -/
theorem isBlank_congr (a b : Str) (h : trimEq a b) : isBlank a = isBlank b := by
  simp [isBlank, trimEq] at h ⊢
  rw [h]

/-- The blank-line filter preserves pointwise `trimEq`. -/
theorem forall₂_dropWhile_blank (l l' : List Str) (h : List.Forall₂ trimEq l l') :
    List.Forall₂ trimEq (l.dropWhile isBlank) (l'.dropWhile isBlank) := by
  induction h with
  | nil => simp
  | @cons a b l l' hab htail ih =>
      simp only [List.dropWhile_cons]
      rw [isBlank_congr a b hab]
      by_cases hb : isBlank b = true
      · simp only [hb, if_pos]
        exact ih
      · simp only [Bool.not_eq_true] at hb
        simp only [hb]
        exact List.Forall₂.cons hab htail

/-- The body parser depends on its input lines only through their trimmed
forms: pointwise `trimEq` inputs give the same outcome (and pointwise
`trimEq` remaining lines). -/
theorem parseBodyAux_trim_invariant :
    ∀ (fuel : Nat) (lines lines' : List Str) (chart : Chart) (st : ParseState)
      (stopOnEnd lastWasLink : Bool),
      List.Forall₂ trimEq lines lines' →
      ResultRel (parseBodyAux fuel lines chart st stopOnEnd lastWasLink)
        (parseBodyAux fuel lines' chart st stopOnEnd lastWasLink) := by
  intro fuel
  induction fuel with
  | zero =>
      intro lines lines' chart st stopOnEnd lastWasLink _
      simp [parseBodyAux, ResultRel]
  | succ fuel ih =>
      intro lines lines' chart st stopOnEnd lastWasLink h
      cases h with
      | nil => simp [parseBodyAux, ResultRel]
      | @cons a b l l' hab htail =>
          simp only [parseBodyAux]
          have hab' : trim a = trim b := hab
          rw [hab']
          by_cases h1 : trim b = []
          · simp only [if_pos h1]
            exact ih l l' chart st stopOnEnd lastWasLink htail
          · simp only [if_neg h1]
            by_cases h2 : trim b = strL "end"
            · simp only [if_pos h2]
              exact ⟨htail, rfl, rfl, rfl⟩
            · simp only [if_neg h2]
              cases hsg : subgraphMatch (trim b) with
              | some x =>
                  obtain ⟨sgId, titleO⟩ := x
                  simp only [hsg]
                  have hdw := forall₂_dropWhile_blank l l' htail
                  generalize hg1 : List.dropWhile isBlank l = r1 at hdw ⊢
                  generalize hg2 : List.dropWhile isBlank l' = r1' at hdw ⊢
                  cases hdw with
                  | nil => simp [ResultRel]
                  | @cons dL dL' r2 r2' hd htl2 =>
                      simp only
                      have hd' : trim dL = trim dL' := hd
                      rw [hd']
                      cases hdm : directionMatch (trim dL') with
                      | none => simp [hdm, ResultRel]
                      | some dir =>
                          simp only [hdm]
                          have hnested := ih r2 r2'
                            ((Chart.new (some (titleO.getD [])) .TD).setDirection dir)
                            st true false htl2
                          cases hr : parseBodyAux fuel r2
                              ((Chart.new (some (titleO.getD [])) .TD).setDirection dir)
                              st true false with
                          | error e =>
                              cases hr' : parseBodyAux fuel r2'
                                  ((Chart.new (some (titleO.getD [])) .TD).setDirection dir)
                                  st true false with
                              | error e' =>
                                  rw [hr, hr'] at hnested
                                  simp only [ResultRel] at hnested
                                  simp only [hr, hr']
                                  simp [ResultRel, hnested]
                              | ok v =>
                                  rw [hr, hr'] at hnested
                                  simp [ResultRel] at hnested
                          | ok v =>
                              obtain ⟨rem, subC, st2, found⟩ := v
                              cases hr' : parseBodyAux fuel r2'
                                  ((Chart.new (some (titleO.getD [])) .TD).setDirection dir)
                                  st true false with
                              | error e' =>
                                  rw [hr, hr'] at hnested
                                  simp [ResultRel] at hnested
                              | ok v' =>
                                  obtain ⟨rem', subC', st2', found'⟩ := v'
                                  rw [hr, hr'] at hnested
                                  obtain ⟨hrem, hc, hst, hf⟩ := hnested
                                  subst hc hst hf
                                  simp only [hr, hr']
                                  cases found with
                                  | false => simp [ResultRel]
                                  | true =>
                                      simp only [if_pos rfl]
                                      exact ih rem rem'
                                        (chart.addSubgraph (.mk (some sgId) subC))
                                        st2 stopOnEnd false hrem
              | none =>
                  simp only [hsg]
                  cases hcd : classDefMatch (trim b) with
                  | some x =>
                      obtain ⟨names, styRaw⟩ := x
                      simp only [hcd]
                      exact ih l l' _ st stopOnEnd false htail
                  | none =>
                      simp only [hcd]
                      cases hca : classAttachMatch (trim b) with
                      | some x =>
                          obtain ⟨nodesS, cls⟩ := x
                          simp only [hca]
                          exact ih l l' _ st stopOnEnd false htail
                      | none =>
                          simp only [hca]
                          cases hls : linkStyleMatch (trim b) with
                          | some x =>
                              obtain ⟨k, cap⟩ := x
                              simp only [hls]
                              by_cases hio : (lastWasLink &&
                                  st.lastParsedLinkIndex == some k &&
                                  (match mapGet st.linksByIndex k with
                                   | some lk => !styleTruthy lk.style
                                   | none => false)) = true
                              · simp only [if_pos hio]
                                exact ih l l' _ _ stopOnEnd false htail
                              · simp only [if_neg hio]
                                exact ih l l' _ st stopOnEnd false htail
                          | none =>
                              simp only [hls]
                              cases hlm : linkMatch (trim b) with
                              | some x =>
                                  obtain ⟨src, ty, txt, dst⟩ := x
                                  simp only [hlm]
                                  exact ih l l' _ _ stopOnEnd true htail
                              | none =>
                                  simp only [hlm]
                                  cases hnl : parseNodeLine (trim b) with
                                  | some nd =>
                                      simp only [hnl]
                                      exact ih l l' _ st stopOnEnd false htail
                                  | none => simp [hnl, ResultRel]

/-- The front-matter scan depends on the lines only through their trimmed
forms. -/
theorem fmScan_trim_invariant :
    ∀ (l l' : List Str), List.Forall₂ trimEq l l' → ∀ t : Option Str,
      (match fmScan l t, fmScan l' t with
       | .error e, .error e' => e = e'
       | .ok (a, rem), .ok (a', rem') => a = a' ∧ List.Forall₂ trimEq rem rem'
       | _, _ => False) := by
  intro l l' h
  induction h with
  | nil => intro t; simp [fmScan]
  | @cons a b r r' hab htail ih =>
      intro t
      simp only [fmScan]
      have hab' : trim a = trim b := hab
      rw [hab']
      by_cases h1 : trim b = strL "---"
      · simp only [if_pos h1]
        exact ⟨by trivial, htail⟩
      · simp only [if_neg h1]
        cases ht : titleMatch (trim b) with
        | some cap => simp only [ht]; exact ih (some cap)
        | none => simp only [ht]; exact ih t

/-- The header-and-body stage depends on the lines only through their
trimmed forms. -/
theorem parseAfterFM_trim_invariant (tt : Option Str) (r1 r1' : List Str)
    (hrel : List.Forall₂ trimEq r1 r1') :
    parseAfterFM tt r1 = parseAfterFM tt r1' := by
  unfold parseAfterFM
  have h0 := forall₂_dropWhile_blank r1 r1' hrel
  generalize hg1 : List.dropWhile isBlank r1 = s0 at h0 ⊢
  generalize hg2 : List.dropWhile isBlank r1' = s0' at h0 ⊢
  cases h0 with
  | nil => rfl
  | @cons hh hh' r3 r3' hhd htl =>
      simp only
      have hhd' : trim hh = trim hh' := hhd
      rw [hhd']
      cases hm : headerMatch (trim hh') with
      | none => rfl
      | some dir =>
          simp only [hm]
          have hlen : r3.length = r3'.length := htl.length_eq
          have hres := parseBodyAux_trim_invariant (r3.length + 1) r3 r3'
            (Chart.new tt dir) ⟨0, [], none⟩ false false htl
          rw [hlen]
          rw [hlen] at hres
          cases hr : parseBodyAux (r3'.length + 1) r3 (Chart.new tt dir) ⟨0, [], none⟩
              false false with
          | error e =>
              cases hr' : parseBodyAux (r3'.length + 1) r3' (Chart.new tt dir) ⟨0, [], none⟩
                  false false with
              | error e' =>
                  rw [hr, hr'] at hres
                  simp only [ResultRel] at hres
                  simp [hr, hr', hres]
              | ok v =>
                  rw [hr, hr'] at hres
                  simp [ResultRel] at hres
          | ok v =>
              obtain ⟨rem, c, st2, found⟩ := v
              cases hr' : parseBodyAux (r3'.length + 1) r3' (Chart.new tt dir) ⟨0, [], none⟩
                  false false with
              | error e' =>
                  rw [hr, hr'] at hres
                  simp [ResultRel] at hres
              | ok v' =>
                  obtain ⟨rem', c', st2', found'⟩ := v'
                  rw [hr, hr'] at hres
                  obtain ⟨_, hc, _, hf⟩ := hres
                  subst hc hf
                  rfl

/-- C10: the parser never inspects indentation: every line is trimmed
before classification, so two line lists that agree pointwise after
trimming (that is, differ only in leading and trailing whitespace on each
line) produce equal parse results — the same chart or the same error. -/
theorem C10_whitespace_insensitivity (lines lines' : List Str)
    (h : List.Forall₂ trimEq lines lines') :
    parseFlowchartLines lines = parseFlowchartLines lines' := by
  unfold parseFlowchartLines
  have h0 := forall₂_dropWhile_blank lines lines' h
  generalize hg1 : List.dropWhile isBlank lines = r0 at h0 ⊢
  generalize hg2 : List.dropWhile isBlank lines' = r0' at h0 ⊢
  cases h0 with
  | nil => rfl
  | @cons a b r r' hab htail =>
      simp only
      have hab' : trim a = trim b := hab
      rw [hab']
      by_cases h1 : trim b = strL "---"
      · simp only [if_pos h1]
        have hfm := fmScan_trim_invariant r r' htail none
        cases hf : fmScan r none with
        | error e =>
            cases hf' : fmScan r' none with
            | error e' =>
                rw [hf, hf'] at hfm
                simp only at hfm
                simp [hf, hf', hfm]
            | ok v =>
                rw [hf, hf'] at hfm
                simp at hfm
        | ok v =>
            obtain ⟨tt, rem⟩ := v
            cases hf' : fmScan r' none with
            | error e' =>
                rw [hf, hf'] at hfm
                simp at hfm
            | ok v' =>
                obtain ⟨tt', rem'⟩ := v'
                rw [hf, hf'] at hfm
                obtain ⟨hteq, hremF⟩ := hfm
                subst hteq
                simp only [hf, hf']
                exact parseAfterFM_trim_invariant tt rem rem' hremF
      · simp only [if_neg h1]
        exact parseAfterFM_trim_invariant none (a :: r) (b :: r')
          (List.Forall₂.cons hab htail)

/-- Witness for C10 at a concrete pair of documents differing in
indentation. -/
theorem C10_whitespace_insensitivity_witness :
    List.Forall₂ trimEq [strL "flowchart TD", strL "  a(b)"]
      [strL "   flowchart TD  ", strL "a(b)   "] ∧
    parseFlowchartLines [strL "flowchart TD", strL "  a(b)"] =
      parseFlowchartLines [strL "   flowchart TD  ", strL "a(b)   "] :=
  ⟨List.Forall₂.cons rfl (List.Forall₂.cons rfl List.Forall₂.nil),
   C10_whitespace_insensitivity [strL "flowchart TD", strL "  a(b)"]
     [strL "   flowchart TD  ", strL "a(b)   "]
     (List.Forall₂.cons rfl (List.Forall₂.cons rfl List.Forall₂.nil))⟩

/-! ## Utilities for the round-trip proof -/

/-- Trimming an all-whitespace indent followed by content that starts and
ends with non-whitespace characters yields the content. -/
theorem trim_indent (ind content : Str) (hind : ∀ c ∈ ind, isWs c = true)
    (h1 : startsNonWs content = true) (h2 : startsNonWs content.reverse = true) :
    trim (ind ++ content) = content := by
  unfold trim trimL trimR
  have hdrop : List.dropWhile isWs (ind ++ content) = content := by
    rw [List.dropWhile_append]
    have hi : List.dropWhile isWs ind = [] := by
      rw [List.dropWhile_eq_nil_iff]
      exact fun c hc => by simp [hind c hc]
    rw [hi]
    simp only [List.isEmpty_nil, if_pos]
    cases content with
    | nil => rfl
    | cons c r =>
        simp only [startsNonWs, Bool.not_eq_true'] at h1
        simp [List.dropWhile_cons, h1]
  rw [hdrop]
  cases hrev : content.reverse with
  | nil => simp [List.reverse_eq_nil_iff.mp hrev]
  | cons c r =>
      rw [hrev] at h2
      simp only [startsNonWs, Bool.not_eq_true'] at h2
      rw [List.dropWhile_cons]
      simp only [h2, Bool.false_eq_true, if_neg, if_false]
      rw [← hrev, List.reverse_reverse]

/-- Trimming a whitespace-free string is the identity. -/
theorem trim_noWs (s : Str) (h : ∀ c ∈ s, isWs c = false) : trim s = s := by
  cases s with
  | nil => rfl
  | cons c r =>
      have := trim_indent [] (c :: r) (by simp) ?_ ?_
      · simpa using this
      · simp [startsNonWs, h c (by simp)]
      · cases hrev : (c :: r).reverse with
        | nil => simp at hrev
        | cons c2 r2 =>
            have hmem : c2 ∈ c :: r := by
              have h3 : c2 ∈ (c :: r).reverse := by rw [hrev]; simp
              exact List.mem_reverse.mp h3
            simp [startsNonWs, h c2 hmem]

/-- A trimmed string is unchanged by `trim` (Bool form). -/
theorem trimmedB_eq (s : Str) (h : trimmedB s = true) : trim s = s := by
  simpa [trimmedB] using h

/-- `joinComma` of at least two chunks. -/
theorem joinComma_cons_cons (c c2 : Str) (cs : List Str) :
    joinComma (c :: c2 :: cs) = c ++ ',' :: joinComma (c2 :: cs) := rfl

/-- Digit characters are digits. -/
theorem digitChar_isDigit (d : Nat) (h : d < 10) : (digitChar d).isDigit = true := by
  interval_cases d <;> decide

/-- Numeric value of a digit character. -/
theorem digitChar_val (d : Nat) (h : d < 10) : (digitChar d).toNat - 48 = d := by
  interval_cases d <;> decide

/-- Every character produced by `natDigitsRev` is a digit. -/
theorem natDigitsRev_digits : ∀ (fuel k : Nat) (c : Char), c ∈ natDigitsRev fuel k →
    c.isDigit = true := by
  intro fuel
  induction fuel with
  | zero => intro k c hc; simp [natDigitsRev] at hc
  | succ fuel ih =>
      intro k c hc
      simp only [natDigitsRev] at hc
      by_cases hk : k < 10
      · simp only [if_pos hk, List.mem_singleton] at hc
        exact hc ▸ digitChar_isDigit k hk
      · simp only [if_neg hk, List.mem_cons] at hc
        rcases hc with h | h
        · exact h ▸ digitChar_isDigit (k % 10) (Nat.mod_lt k (by omega))
        · exact ih (k / 10) c h

/-- Every character of `natToStr k` is a digit. -/
theorem natToStr_digits (k : Nat) (c : Char) (hc : c ∈ natToStr k) : c.isDigit = true :=
  natDigitsRev_digits (k + 1) k c (List.mem_reverse.mp hc)

/-- `natToStr` is never empty. -/
theorem natToStr_ne_nil (k : Nat) : natToStr k ≠ [] := by
  unfold natToStr natDigitsRev
  by_cases hk : k < 10 <;> simp [hk]

/-- `parseNatDigits` over an appended digit. -/
theorem parseNatDigits_append (xs : Str) (c : Char) :
    parseNatDigits (xs ++ [c]) = 10 * parseNatDigits xs + (c.toNat - 48) := by
  simp [parseNatDigits, List.foldl_append]

/-- `parseNatDigits` inverts `natDigitsRev` (with sufficient fuel). -/
theorem parseNatDigits_natDigitsRev :
    ∀ (fuel k : Nat), k < fuel → parseNatDigits (natDigitsRev fuel k).reverse = k := by
  intro fuel
  induction fuel with
  | zero => intro k hk; omega
  | succ fuel ih =>
      intro k hk
      simp only [natDigitsRev]
      by_cases h10 : k < 10
      · simp only [if_pos h10, List.reverse_singleton]
        have : parseNatDigits [digitChar k] = 10 * parseNatDigits [] + ((digitChar k).toNat - 48) :=
          parseNatDigits_append [] (digitChar k)
        rw [this]
        simp [parseNatDigits, digitChar_val k h10]
      · simp only [if_neg h10, List.reverse_cons]
        rw [parseNatDigits_append]
        have hdivlt : k / 10 < k := Nat.div_lt_self (by omega) (by omega)
        rw [ih (k / 10) (by omega), digitChar_val (k % 10) (Nat.mod_lt k (by omega))]
        omega

/-- `parseNatDigits` inverts `natToStr`. -/
theorem parseNatDigits_natToStr (k : Nat) : parseNatDigits (natToStr k) = k :=
  parseNatDigits_natDigitsRev (k + 1) k (Nat.lt_succ_self k)

/-- Digits are not whitespace. -/
theorem isDigit_not_ws (c : Char) (h : c.isDigit = true) : isWs c = false := by
  by_contra hw
  simp only [Bool.not_eq_false] at hw
  simp only [isWs, Bool.or_eq_true, beq_iff_eq] at hw
  rcases hw with ((((h1 | h1) | h1) | h1) | h1) | h1 <;> subst h1 <;> exact absurd h (by decide)

/-- `dropWhile` does not lengthen a list. -/
theorem dropWhile_len_le (p : Char → Bool) (l : Str) :
    (List.dropWhile p l).length ≤ l.length :=
  (List.dropWhile_suffix p).length_le

/-- `trimL` does not lengthen a string. -/
theorem trimL_len_le (s : Str) : (trimL s).length ≤ s.length :=
  dropWhile_len_le isWs s

/-- `trimR` does not lengthen a string. -/
theorem trimR_len_le (s : Str) : (trimR s).length ≤ s.length := by
  unfold trimR
  rw [List.length_reverse]
  calc (s.reverse.dropWhile isWs).length ≤ s.reverse.length := dropWhile_len_le isWs s.reverse
    _ = s.length := List.length_reverse s

/-- `trim` does not lengthen a string. -/
theorem trim_len_le (s : Str) : (trim s).length ≤ s.length := by
  unfold trim
  calc (trimR (trimL s)).length ≤ (trimL s).length := trimR_len_le (trimL s)
    _ ≤ s.length := trimL_len_le s

/-- A trimmed non-empty string starts with a non-whitespace character. -/
theorem trimmed_startsNonWs (s : Str) (ht : trim s = s) (hne : s ≠ []) :
    startsNonWs s = true := by
  cases s with
  | nil => exact absurd rfl hne
  | cons c r =>
      simp only [startsNonWs, Bool.not_eq_true']
      by_contra hws
      simp only [Bool.not_eq_false] at hws
      have heq : trim (c :: r) = trim r := by
        unfold trim trimL
        rw [List.dropWhile_cons, if_pos hws]
      rw [ht] at heq
      have h2 := trim_len_le r
      have h3 := congrArg List.length heq
      simp only [List.length_cons] at h3
      omega

/-- `dropWhile isWs` is the identity on a string starting with a
non-whitespace character (or empty). -/
theorem dropWhile_ws_id (s : Str) (h : s = [] ∨ startsNonWs s = true) :
    List.dropWhile isWs s = s := by
  rcases h with h | h
  · simp [h]
  · cases s with
    | nil => rfl
    | cons c r =>
        simp only [startsNonWs, Bool.not_eq_true'] at h
        simp [List.dropWhile_cons, h]

/-- `stripWsPlus` after a single space. -/
theorem stripWsPlus_space (x : Str) : stripWsPlus (' ' :: x) = some (List.dropWhile isWs x) := by
  simp [stripWsPlus, List.dropWhile_cons, show isWs ' ' = true from rfl]

/-- The `linkStyle` statement line matches its own pattern, recovering the
index and the raw remainder (style text plus semicolon). -/
theorem linkStyleMatch_line (k : Nat) (sv : Str) (hsv : trim sv = sv)
    (hnl : noLTB sv = true) :
    linkStyleMatch (strL "linkStyle " ++ (natToStr k ++ (' ' :: (sv ++ [';'])))) =
      some (k, sv ++ [';']) := by
  have hkw : stripKw (strL "linkStyle")
      (strL "linkStyle " ++ (natToStr k ++ (' ' :: (sv ++ [';'])))) =
      some (' ' :: (natToStr k ++ (' ' :: (sv ++ [';'])))) := rfl
  unfold linkStyleMatch
  simp only [hkw, stripWsPlus_space]
  have hnkd : ∀ c ∈ natToStr k, isWs c = false :=
    fun c hc => isDigit_not_ws c (natToStr_digits k c hc)
  have hz : List.dropWhile isWs (natToStr k ++ (' ' :: (sv ++ [';']))) =
      natToStr k ++ (' ' :: (sv ++ [';'])) := by
    cases hnk : natToStr k with
    | nil => exact absurd hnk (natToStr_ne_nil k)
    | cons c cs =>
        rw [List.cons_append, List.dropWhile_cons]
        have hcw : isWs c = false := hnkd c (by rw [hnk]; simp)
        simp [hcw]
  simp only [hz]
  have htk : List.takeWhile Char.isDigit (natToStr k ++ (' ' :: (sv ++ [';']))) = natToStr k := by
    refine takeWhile_of_all_not (natToStr k) _ (fun c hc => natToStr_digits k c hc) ?_
    intro c hc
    have hc2 : (some ' ' : Option Char) = some c := hc
    injection hc2 with hc3
    subst hc3
    decide
  simp only [htk]
  simp only [if_neg (natToStr_ne_nil k), List.drop_left, stripWsPlus_space]
  have hsvw : List.dropWhile isWs (sv ++ [';']) = sv ++ [';'] := by
    refine dropWhile_ws_id _ (Or.inr ?_)
    cases sv with
    | nil => decide
    | cons c r =>
        have := trimmed_startsNonWs (c :: r) hsv (by simp)
        simpa [startsNonWs] using this
  simp only [hsvw]
  have hne2 : sv ++ [';'] ≠ [] := by simp
  have hlt2 : noLTB (sv ++ [';']) = true := by
    rw [noLTB_append, hnl]
    decide
  simp only [if_neg hne2, if_pos hlt2, parseNatDigits_natToStr]

/-- Trimming then dropping the final semicolon of an emitted style text
recovers the style text. -/
theorem dropSemi_trim (sv : Str) (hsv : trim sv = sv) : dropSemi (trim (sv ++ [';'])) = sv := by
  have htr : trim (sv ++ [';']) = sv ++ [';'] := by
    have h0 := trim_indent [] (sv ++ [';']) (by simp) ?_ ?_
    · simpa using h0
    · cases sv with
      | nil => decide
      | cons c r =>
          have := trimmed_startsNonWs (c :: r) hsv (by simp)
          simpa [startsNonWs] using this
    · rw [List.reverse_append]
      rfl
  rw [htr]
  unfold dropSemi
  rw [List.getLast?_concat]
  simp [List.dropLast_concat]

/-- If two lists are prefixes of a common list, one is a prefix of the
other (restatement of the library lemma for direct use). -/
theorem prefix_total {l₁ l₂ l₃ : Str} (h1 : l₁ <+: l₃) (h2 : l₂ <+: l₃) :
    l₁ <+: l₂ ∨ l₂ <+: l₁ :=
  List.prefix_or_prefix_of_prefix h1 h2

/-- A keyword of non-whitespace characters cannot start a statement whose
first token differs from the keyword and is followed by a space: either
the keyword is not a prefix at all, or the mandatory whitespace test
fails. -/
theorem kw_src_fail (kw src rest : Str) (hkw : ∀ c ∈ kw, isWs c = false)
    (hsrc : ∀ c ∈ src, isWs c = false) (hne : src ≠ kw) :
    stripKw kw (src ++ ' ' :: rest) = none ∨
      stripKw kw (src ++ ' ' :: rest) = some ((src ++ ' ' :: rest).drop kw.length) ∧
        stripWsPlus ((src ++ ' ' :: rest).drop kw.length) = none := by
  unfold stripKw
  by_cases hp : kw.isPrefixOf (src ++ ' ' :: rest)
  · right
    refine ⟨by simp [hp], ?_⟩
    have hpre : kw <+: (src ++ ' ' :: rest) := List.isPrefixOf_iff_prefix.mp hp
    have hsp : src <+: (src ++ ' ' :: rest) := ⟨' ' :: rest, rfl⟩
    rcases prefix_total hpre hsp with hks | hsk
    · obtain ⟨t, ht⟩ := hks
      have htne : t ≠ [] := by
        intro h0
        rw [h0, List.append_nil] at ht
        exact hne ht.symm
      have hdrop : (src ++ ' ' :: rest).drop kw.length = t ++ ' ' :: rest := by
        rw [← ht, List.append_assoc, List.drop_left]
      rw [hdrop]
      cases t with
      | nil => exact absurd rfl htne
      | cons c cs =>
          have hcs : c ∈ src := by rw [← ht]; simp
          simp [stripWsPlus, hsrc c hcs]
    · obtain ⟨t, ht⟩ := hsk
      have htne : t ≠ [] := by
        intro h0
        rw [h0, List.append_nil] at ht
        exact hne ht
      obtain ⟨u, hu⟩ := hpre
      rw [← ht] at hu
      rw [List.append_assoc] at hu
      have hcore := List.append_cancel_left hu
      cases t with
      | nil => exact absurd rfl htne
      | cons c cs =>
          have hc : c = ' ' := by
            have := congrArg List.head? hcore
            simp at this
            exact this
          have hcm : c ∈ kw := by rw [← ht]; simp
          have := hkw c hcm
          rw [hc] at this
          exact absurd this (by decide)
  · left
    simp [hp]

/-- Distinctness of lists witnessed by an element of one absent from the
other. -/
theorem ne_of_mem_not_mem {α : Type} {l1 l2 : List α} {c : α} (h1 : c ∈ l1)
    (h2 : c ∉ l2) : l1 ≠ l2 := fun he => h2 (he ▸ h1)

/-- `noNLB` as a membership statement. -/
theorem noNLB_iff (s : Str) : noNLB s = true ↔ '\n' ∉ s := by
  unfold noNLB
  simp [List.contains]

/-- `startsNonWs` is preserved by appending on the right. -/
theorem startsNonWs_append (a b : Str) (ha : startsNonWs a = true) :
    startsNonWs (a ++ b) = true := by
  cases a with
  | nil => simp [startsNonWs] at ha
  | cons c cs => exact ha

/-- On a link statement — a non-keyword source token followed by a space —
the four keyword matchers all fail. -/
theorem link_matchers_none (src R : Str)
    (hsrc : ∀ c ∈ src, isWs c = false)
    (h1 : src ≠ strL "subgraph") (h2 : src ≠ strL "classDef") (h3 : src ≠ strL "class")
    (hR : ∃ c rr, R = c :: rr ∧ isWs c = false ∧ c.isDigit = false) :
    subgraphMatch (src ++ ' ' :: R) = none ∧
      classDefMatch (src ++ ' ' :: R) = none ∧
      classAttachMatch (src ++ ' ' :: R) = none ∧
      linkStyleMatch (src ++ ' ' :: R) = none := by
  refine ⟨?_, ?_, ?_, ?_⟩
  · rcases kw_src_fail (strL "subgraph") src R (by decide) hsrc h1 with h | ⟨ha, hb⟩
    · simp [subgraphMatch, h]
    · simp [subgraphMatch, ha, hb]
  · rcases kw_src_fail (strL "classDef") src R (by decide) hsrc h2 with h | ⟨ha, hb⟩
    · simp [classDefMatch, h]
    · simp [classDefMatch, ha, hb]
  · rcases kw_src_fail (strL "class") src R (by decide) hsrc h3 with h | ⟨ha, hb⟩
    · simp [classAttachMatch, h]
    · simp [classAttachMatch, ha, hb]
  · by_cases hls : src = strL "linkStyle"
    · subst hls
      obtain ⟨c, rr, hRe, hws2, hd⟩ := hR
      have hk : stripKw (strL "linkStyle") (strL "linkStyle" ++ ' ' :: R) =
          some (' ' :: R) := by
        unfold stripKw
        rw [if_pos (List.isPrefixOf_iff_prefix.mpr ⟨' ' :: R, rfl⟩), List.drop_left]
      have hw : stripWsPlus (' ' :: R) = some R := by
        rw [stripWsPlus_space, hRe, List.dropWhile_cons, if_neg (by simp [hws2])]
      have htw : R.takeWhile Char.isDigit = [] := by
        rw [hRe, List.takeWhile_cons, if_neg (by simp [hd])]
      simp [linkStyleMatch, hk, hw, htw]
    · rcases kw_src_fail (strL "linkStyle") src R (by decide) hsrc hls with h | ⟨ha, hb⟩
      · simp [linkStyleMatch, h]
      · simp [linkStyleMatch, ha, hb]

/-- Each link-kind token starts with a non-whitespace, non-digit
character. -/
theorem token_head (ty : LinkType) :
    ∃ c cs, ty.token = c :: cs ∧ isWs c = false ∧ c.isDigit = false := by
  cases ty <;> exact ⟨_, _, rfl, by decide, by decide⟩

/-- `arrowAtFront` recognizes each token at the front of the remainder. -/
theorem arrowAtFront_token (ty : LinkType) (x : Str) :
    arrowAtFront (ty.token ++ x) = some (ty, x) := by
  have hne1 : ∀ y : Str, ((strL "-->").isPrefixOf (strL "---" ++ y)) ≠ true := by
    intro y hp
    obtain ⟨u, hu⟩ := List.isPrefixOf_iff_prefix.mp hp
    have h2 : '-' :: '-' :: '>' :: u = '-' :: '-' :: '-' :: y := hu
    injection h2 with _ h2
    injection h2 with _ h2
    injection h2 with h3 _
    exact absurd h3 (by decide)
  have hne2 : ∀ y : Str, ((strL "-->").isPrefixOf (strL "~~~" ++ y)) ≠ true := by
    intro y hp
    obtain ⟨u, hu⟩ := List.isPrefixOf_iff_prefix.mp hp
    have h2 : '-' :: '-' :: '>' :: u = '~' :: '~' :: '~' :: y := hu
    injection h2 with h3 _
    exact absurd h3 (by decide)
  have hne3 : ∀ y : Str, ((strL "---").isPrefixOf (strL "~~~" ++ y)) ≠ true := by
    intro y hp
    obtain ⟨u, hu⟩ := List.isPrefixOf_iff_prefix.mp hp
    have h2 : '-' :: '-' :: '-' :: u = '~' :: '~' :: '~' :: y := hu
    injection h2 with h3 _
    exact absurd h3 (by decide)
  cases ty with
  | ARROW =>
      unfold arrowAtFront
      simp only [LinkType.token]
      rw [if_pos (List.isPrefixOf_iff_prefix.mpr ⟨x, rfl⟩)]
      rw [show (3 : Nat) = (strL "-->").length from rfl, List.drop_left]
  | OPEN =>
      unfold arrowAtFront
      simp only [LinkType.token]
      rw [if_neg (hne1 x), if_pos (List.isPrefixOf_iff_prefix.mpr ⟨x, rfl⟩)]
      rw [show (3 : Nat) = (strL "---").length from rfl, List.drop_left]
  | INVISIBLE =>
      unfold arrowAtFront
      simp only [LinkType.token]
      rw [if_neg (hne2 x), if_neg (hne3 x),
        if_pos (List.isPrefixOf_iff_prefix.mpr ⟨x, rfl⟩)]
      rw [show (3 : Nat) = (strL "~~~").length from rfl, List.drop_left]

/-- `linkMatch` on a printed link statement recovers the source, kind,
label and destination. -/
theorem linkMatch_line (s d tp : Str) (ty : LinkType) (txtV : Option Str)
    (hs1 : s ≠ []) (hs2 : ∀ c ∈ s, isWs c = false)
    (hd1 : d ≠ []) (hd2 : ∀ c ∈ d, isWs c = false)
    (hdp : d.head? ≠ some '|')
    (htp : (tp = [] ∧ txtV = none) ∨
      (∃ t, tp = '|' :: (t ++ ['|']) ∧ txtV = some t ∧ t ≠ [] ∧ '|' ∉ t)) :
    linkMatch (s ++ ' ' :: (ty.token ++ ' ' :: (tp ++ d))) = some (s, ty, txtV, d) := by
  have htws : (s ++ ' ' :: (ty.token ++ ' ' :: (tp ++ d))).takeWhile
      (fun c => !isWs c) = s := by
    apply takeWhile_of_all_not s _ (fun c hc => by simp [hs2 c hc])
    intro c hc
    simp at hc
    rw [← hc]
    decide
  have hdrop : (s ++ ' ' :: (ty.token ++ ' ' :: (tp ++ d))).drop s.length =
      ' ' :: (ty.token ++ ' ' :: (tp ++ d)) := List.drop_left s _
  obtain ⟨tc, tcs, htok, htw, _⟩ := token_head ty
  have hwsp : stripWsPlus (' ' :: (ty.token ++ ' ' :: (tp ++ d))) =
      some (ty.token ++ ' ' :: (tp ++ d)) := by
    rw [stripWsPlus_space, htok, List.cons_append, List.dropWhile_cons,
      if_neg (by simp [htw])]
  have hdall : d.all (fun c => !isWs c) = true := by
    rw [List.all_eq_true]
    intro c hc
    simp [hd2 c hc]
  unfold linkMatch
  simp only [htws, if_neg hs1, hdrop, hwsp, arrowAtFront_token, List.dropWhile_cons,
    if_pos (show isWs ' ' = true from rfl)]
  rcases htp with ⟨htp0, htv⟩ | ⟨t, htp0, htv, ht1, ht2⟩
  · subst htp0
    subst htv
    rw [List.nil_append]
    have hddw : d.dropWhile isWs = d := by
      cases d with
      | nil => rfl
      | cons c cs =>
          rw [List.dropWhile_cons, if_neg (by simp [hd2 c (by simp)])]
    rw [hddw]
    cases d with
    | nil => exact absurd rfl hd1
    | cons c cs =>
        split
        · rename_i r5 heq
          rw [show c :: cs = '|' :: r5 from heq] at hdp
          exact absurd rfl hdp
        · rw [if_pos ⟨hd1, hdall⟩]
  · subst htp0
    subst htv
    rw [List.cons_append]
    have hr5 : (t ++ ['|']) ++ d = t ++ ('|' :: d) := by
      rw [List.append_assoc]
      rfl
    rw [show List.dropWhile isWs ('|' :: ((t ++ ['|']) ++ d)) = '|' :: ((t ++ ['|']) ++ d)
      from by rw [List.dropWhile_cons, if_neg (by decide)]]
    rw [hr5]
    have htcap : (t ++ ('|' :: d)).takeWhile (fun c => decide (c ≠ '|')) = t := by
      apply takeWhile_of_all_not t _ (fun c hc => by
        simp only [decide_eq_true_eq]
        intro he
        rw [he] at hc
        exact ht2 hc)
      intro c hc
      simp at hc
      rw [← hc]
      simp
    have hdrop1 : (t ++ ('|' :: d)).drop t.length = '|' :: d := List.drop_left t _
    have hdrop2 : (t ++ ('|' :: d)).drop (t.length + 1) = d := by
      rw [List.drop_append]
      rfl
    have hddw : d.dropWhile isWs = d := by
      cases d with
      | nil => rfl
      | cons c cs =>
          rw [List.dropWhile_cons, if_neg (by simp [hd2 c (by simp)])]
    simp only [htcap, hdrop1, hdrop2, hddw]
    rw [if_pos ⟨ht1, rfl⟩]
    rw [if_pos ⟨hd1, hdall⟩]

/-- `noWsB` as an elementwise statement. -/
theorem noWsB_iff (s : Str) : noWsB s = true ↔ ∀ c ∈ s, isWs c = false := by
  unfold noWsB
  rw [List.all_eq_true]
  constructor
  · intro h c hc
    simpa using h c hc
  · intro h c hc
    simp [h c hc]

/-- A whitespace character does not occur in a whitespace-free string. -/
theorem ws_not_mem (a : Str) (h : ∀ c ∈ a, isWs c = false) (c0 : Char)
    (hc0 : isWs c0 = true) : c0 ∉ a := by
  intro hm
  rw [h c0 hm] at hc0
  exact absurd hc0 (by decide)

/-- A non-empty whitespace-free string starts with a non-whitespace
character. -/
theorem startsNonWs_of_all (a : Str) (h1 : a ≠ []) (h2 : ∀ c ∈ a, isWs c = false) :
    startsNonWs a = true := by
  cases a with
  | nil => exact absurd rfl h1
  | cons c cs => simp [startsNonWs, h2 c (by simp)]

/-- A non-empty whitespace-free string ends with a non-whitespace
character. -/
theorem startsNonWs_rev_of_all (a : Str) (h1 : a ≠ []) (h2 : ∀ c ∈ a, isWs c = false) :
    startsNonWs a.reverse = true := by
  cases hr : a.reverse with
  | nil => exact absurd (by simpa using congrArg List.reverse hr) h1
  | cons c cs =>
      have hc : c ∈ a := by
        rw [← List.mem_reverse, hr]
        simp
      simp [startsNonWs, h2 c hc]

/-- No link-kind token contains a newline. -/
theorem nl_not_mem_token (ty : LinkType) : '\n' ∉ ty.token := by
  cases ty <;> decide

/-- All line-level facts about a well-formed link's printed statement. -/
theorem linkLine_facts (l : Link) (h : wfLink l = true) :
    startsNonWs (Link.toStr l) = true ∧
    startsNonWs (Link.toStr l).reverse = true ∧
    noNLB (Link.toStr l) = true ∧
    Link.toStr l ≠ strL "end" ∧
    subgraphMatch (Link.toStr l) = none ∧
    classDefMatch (Link.toStr l) = none ∧
    classAttachMatch (Link.toStr l) = none ∧
    linkStyleMatch (Link.toStr l) = none ∧
    linkMatch (Link.toStr l) = some (resolveRef l.src, l.type,
      (match l.text with
       | some t => if t.isEmpty then none else some t
       | none => none), resolveRef l.dest) := by
  simp only [wfLink, Bool.and_eq_true, decide_eq_true_eq] at h
  obtain ⟨⟨⟨⟨⟨⟨⟨⟨⟨hs1, hs2⟩, hd1⟩, hd2⟩, hk1⟩, hk2⟩, hk3⟩, hdp⟩, htxt⟩, _hsty⟩ := h
  have hsne : resolveRef l.src ≠ [] := by
    intro he
    rw [he] at hs1
    exact absurd hs1 (by decide)
  have hdne : resolveRef l.dest ≠ [] := by
    intro he
    rw [he] at hd1
    exact absurd hd1 (by decide)
  have hs2ws := (noWsB_iff _).mp hs2
  have hd2ws := (noWsB_iff _).mp hd2
  have hdpP : (resolveRef l.dest).head? ≠ some '|' := by
    simp only [Bool.not_eq_true', beq_eq_false_iff_ne, ne_eq] at hdp
    exact hdp
  have htp : ((match l.text with
      | some t => if truthyStr t then ['|'] ++ t ++ ['|'] else []
      | none => []) = [] ∧ (match l.text with
      | some t => if t.isEmpty then none else some t
      | none => none) = (none : Option Str)) ∨
    (∃ t, (match l.text with
      | some t2 => if truthyStr t2 then ['|'] ++ t2 ++ ['|'] else []
      | none => []) = '|' :: (t ++ ['|']) ∧ (match l.text with
      | some t2 => if t2.isEmpty then none else some t2
      | none => none) = some t ∧ t ≠ [] ∧ '|' ∉ t ∧ noNLB t = true) := by
    cases htc : l.text with
    | none => exact Or.inl ⟨rfl, rfl⟩
    | some t =>
        by_cases hte : t = []
        · subst hte
          exact Or.inl ⟨rfl, rfl⟩
        · right
          rw [htc] at htxt
          have htxt2 : (noNLB t && !t.contains '|') = true := by
            rcases Bool.or_eq_true_iff.mp htxt with h0 | h0
            · exact absurd (List.isEmpty_iff.mp h0) hte
            · exact h0
          simp only [Bool.and_eq_true] at htxt2
          refine ⟨t, ?_, ?_, hte, ?_, htxt2.1⟩
          · simp [truthyStr, hte]
          · simp [List.isEmpty_iff, hte]
          · have h5 := htxt2.2
            simp only [Bool.not_eq_true'] at h5
            simp [List.contains] at h5
            exact h5
  have hts : Link.toStr l = resolveRef l.src ++ ' ' :: (l.type.token ++ ' ' ::
      ((match l.text with
        | some t => if truthyStr t then ['|'] ++ t ++ ['|'] else []
        | none => []) ++ resolveRef l.dest)) := by
    unfold Link.toStr
    simp
  obtain ⟨tc, tcs, htok, htw, htdig⟩ := token_head l.type
  have hmn := link_matchers_none (resolveRef l.src)
    (l.type.token ++ ' ' :: ((match l.text with
      | some t => if truthyStr t then ['|'] ++ t ++ ['|'] else []
      | none => []) ++ resolveRef l.dest)) hs2ws hk1 hk2 hk3
    ⟨tc, tcs ++ ' ' :: ((match l.text with
      | some t => if truthyStr t then ['|'] ++ t ++ ['|'] else []
      | none => []) ++ resolveRef l.dest), by rw [htok]; simp, htw, htdig⟩
  refine ⟨?_, ?_, ?_, ?_, ?_, ?_, ?_, ?_, ?_⟩
  · rw [hts]
    exact startsNonWs_append _ _ (startsNonWs_of_all _ hsne hs2ws)
  · rw [show Link.toStr l = (resolveRef l.src ++ [' '] ++ l.type.token ++ [' '] ++
      (match l.text with
       | some t => if truthyStr t then ['|'] ++ t ++ ['|'] else []
       | none => [])) ++ resolveRef l.dest from rfl, List.reverse_append]
    exact startsNonWs_append _ _ (startsNonWs_rev_of_all _ hdne hd2ws)
  · rw [noNLB_iff, hts]
    intro hmem
    simp only [List.mem_append, List.mem_cons] at hmem
    rcases hmem with hmem | hmem | hmem | hmem | hmem | hmem
    · exact ws_not_mem _ hs2ws '\n' (by decide) hmem
    · exact absurd hmem (by decide)
    · exact nl_not_mem_token l.type hmem
    · exact absurd hmem (by decide)
    · rcases htp with ⟨htp0, _⟩ | ⟨t, htp0, _, _, _, hnlt⟩
      · rw [htp0] at hmem
        simp at hmem
      · rw [htp0] at hmem
        simp only [List.mem_cons, List.mem_append] at hmem
        rcases hmem with hmem | hmem | hmem
        · exact absurd hmem (by decide)
        · exact (noNLB_iff t).mp hnlt hmem
        · simp at hmem
    · exact ws_not_mem _ hd2ws '\n' (by decide) hmem
  · apply ne_of_mem_not_mem (c := ' ')
    · rw [hts]
      simp
    · decide
  · rw [hts]
    exact hmn.1
  · rw [hts]
    exact hmn.2.1
  · rw [hts]
    exact hmn.2.2.1
  · rw [hts]
    exact hmn.2.2.2
  · rw [hts]
    rcases htp with hc | ⟨t, a, b, c, d2, _⟩
    · exact linkMatch_line (resolveRef l.src) (resolveRef l.dest) _ l.type _
        hsne hs2ws hdne hd2ws hdpP (Or.inl hc)
    · exact linkMatch_line (resolveRef l.src) (resolveRef l.dest) _ l.type _
        hsne hs2ws hdne hd2ws hdpP (Or.inr ⟨t, a, b, c, d2⟩)

/-- All line-level facts about a printed positional `linkStyle`
statement. -/
theorem positionalLine_facts (k : Nat) (sv : Str) (hsv : trim sv = sv)
    (hnl : noLTB sv = true) :
    startsNonWs (strL "linkStyle " ++ natToStr k ++ [' '] ++ sv ++ [';']) = true ∧
    startsNonWs (strL "linkStyle " ++ natToStr k ++ [' '] ++ sv ++ [';']).reverse = true ∧
    noNLB (strL "linkStyle " ++ natToStr k ++ [' '] ++ sv ++ [';']) = true ∧
    strL "linkStyle " ++ natToStr k ++ [' '] ++ sv ++ [';'] ≠ strL "end" ∧
    subgraphMatch (strL "linkStyle " ++ natToStr k ++ [' '] ++ sv ++ [';']) = none ∧
    classDefMatch (strL "linkStyle " ++ natToStr k ++ [' '] ++ sv ++ [';']) = none ∧
    classAttachMatch (strL "linkStyle " ++ natToStr k ++ [' '] ++ sv ++ [';']) = none ∧
    linkStyleMatch (strL "linkStyle " ++ natToStr k ++ [' '] ++ sv ++ [';']) =
      some (k, sv ++ [';']) := by
  have hform : strL "linkStyle " ++ natToStr k ++ [' '] ++ sv ++ [';'] =
      strL "linkStyle " ++ (natToStr k ++ (' ' :: (sv ++ [';']))) := by
    simp
  have hkwform : strL "linkStyle " ++ natToStr k ++ [' '] ++ sv ++ [';'] =
      strL "linkStyle" ++ (' ' :: (natToStr k ++ (' ' :: (sv ++ [';'])))) := by
    rw [hform]
    rfl
  obtain ⟨hne, hnend, hsg, hcd, hca⟩ :=
    linkStyle_not_earlier (' ' :: (natToStr k ++ (' ' :: (sv ++ [';']))))
  refine ⟨?_, ?_, ?_, ?_, ?_, ?_, ?_, ?_⟩
  · exact startsNonWs_append _ _ (startsNonWs_append _ _ (startsNonWs_append _ _
      (startsNonWs_append _ _ (by decide))))
  · rw [List.reverse_append,
      show ([';'] : Str).reverse ++ (strL "linkStyle " ++ natToStr k ++ [' '] ++ sv).reverse =
        ';' :: (strL "linkStyle " ++ natToStr k ++ [' '] ++ sv).reverse from rfl]
    simp only [startsNonWs]
    decide
  · rw [noNLB_iff, hform]
    intro hmem
    simp only [List.mem_append, List.mem_cons] at hmem
    rcases hmem with hmem | hmem | hmem | hmem | hmem
    · exact absurd hmem (by decide)
    · exact absurd (natToStr_digits k '\n' hmem) (by decide)
    · exact absurd hmem (by decide)
    · exact (noNLB_iff _).mp (noLTB_noNLB sv hnl) hmem
    · simp at hmem
  · rw [hkwform]
    exact hnend
  · rw [hkwform]
    exact hsg
  · rw [hkwform]
    exact hcd
  · rw [hkwform]
    exact hca
  · rw [hform]
    exact linkStyleMatch_line k sv hsv hnl

/-- One step of the body parser on a printed link statement. -/
theorem parseBodyAux_step_link (fuel : Nat) (rawLine : Str) (rest : List Str)
    (chart : Chart) (st : ParseState) (stopOnEnd lastWasLink : Bool) (l : Link)
    (hline : trim rawLine = Link.toStr l) (hwf : wfLink l = true) :
    parseBodyAux (fuel + 1) (rawLine :: rest) chart st stopOnEnd lastWasLink =
      parseBodyAux fuel rest (chart.addLink (canonParsedLink l))
        ⟨st.nextLinkIndex + 1,
         mapSet st.linksByIndex st.nextLinkIndex (canonParsedLink l),
         some st.nextLinkIndex⟩ stopOnEnd true := by
  obtain ⟨f1, _f2, _f3, f4, f5, f6, f7, f8, f9⟩ := linkLine_facts l hwf
  have hne : Link.toStr l ≠ [] := by
    intro he
    rw [he] at f1
    exact absurd f1 (by decide)
  simp only [parseBodyAux, hline, if_neg hne, if_neg f4, f5, f6, f7, f8, f9]
  rfl

/-- One step of the body parser on a printed `linkStyle` statement taken
inline. -/
theorem parseBodyAux_step_inline (fuel : Nat) (rawLine : Str) (rest : List Str)
    (chart : Chart) (st : ParseState) (stopOnEnd lastWasLink : Bool) (k : Nat) (sv : Str)
    (hline : trim rawLine = strL "linkStyle " ++ natToStr k ++ [' '] ++ sv ++ [';'])
    (hsv : trim sv = sv) (hnl : noLTB sv = true)
    (hcond : (lastWasLink && st.lastParsedLinkIndex == some k &&
        (match mapGet st.linksByIndex k with
         | some l => !styleTruthy l.style
         | none => false)) = true) :
    parseBodyAux (fuel + 1) (rawLine :: rest) chart st stopOnEnd lastWasLink =
      parseBodyAux fuel rest (chart.setLastLinkStyle (Sum.inl sv))
        { st with linksByIndex := st.linksByIndex.map (fun p =>
            if p.1 = k then (p.1, { p.2 with style := some (Sum.inl sv) }) else p) }
        stopOnEnd false := by
  have hm : linkStyleMatch (trim rawLine) = some (k, sv ++ [';']) := by
    rw [hline]
    exact (positionalLine_facts k sv hsv hnl).2.2.2.2.2.2.2
  rw [parseBodyAux_step_linkStyle fuel rawLine rest chart st stopOnEnd lastWasLink k
    (sv ++ [';']) hm]
  rw [if_pos hcond, dropSemi_trim sv hsv]

/-- Attaching a style to the last link of a chart that just received a
link rewrites that link. -/
theorem setLastLinkStyle_addLink (c : Chart) (a : Link) (v : LinkStyleV) :
    (c.addLink a).setLastLinkStyle v = c.addLink { a with style := some v } := by
  cases c with
  | mk t d ns ls ss cd ca pl =>
      simp [Chart.addLink, Chart.setLastLinkStyle, List.dropLast_concat, List.getLast?_concat]

/-- A fresh map binding is immediately retrievable. -/
theorem mapGet_mapSet (m : List (Nat × Link)) (k : Nat) (v : Link) :
    mapGet (mapSet m k v) k = some v := by
  simp [mapGet, mapSet, List.find?]

/-- Updating the style of the binding at the head of the map. -/
theorem mapGet_map_head (old : List (Nat × Link)) (k : Nat) (w : Link) (g : Link → Link) :
    mapGet (((k, w) :: old).map (fun p => if p.1 = k then (p.1, g p.2) else p)) k =
      some (g w) := by
  simp [mapGet, List.find?]

/-- A link without a truthy style parses to its statement's link object
unchanged. -/
theorem canonLink_of_untruthy (l : Link) (h : styleTruthy l.style = false) :
    canonLink l = canonParsedLink l := by
  unfold canonLink canonParsedLink
  rw [h]
  simp

/-- A link with a truthy style parses to its statement's link object with
the style attached by the inline `linkStyle` line. -/
theorem canonLink_of_truthy (l : Link) (h : styleTruthy l.style = true) :
    canonLink l = { canonParsedLink l with
      style := some (Sum.inl (linkStyleText ((l.style).getD (Sum.inl [])))) } := by
  unfold canonLink canonParsedLink
  rw [h]
  simp

/-- The link section of a printed body (link statements interleaved with
inline `linkStyle` lines) parses to the canonical links appended in
order, with the parse state advanced accordingly. -/
theorem links_section (ls : List Link) (ind : Str) (suffix : List Str)
    (chart : Chart) (st : ParseState) (stopOnEnd lastWasLink : Bool)
    (r : Except PErr (List Str × Chart × ParseState × Bool))
    (hwf : ∀ l ∈ ls, wfLink l = true)
    (hind : ∀ c ∈ ind, isWs c = true)
    (hcont : ∀ (st' : ParseState) (flag : Bool),
       st'.nextLinkIndex = st.nextLinkIndex + ls.length →
       (ls = [] → st' = st ∧ flag = lastWasLink) →
       (∀ l, ls.getLast? = some l →
          flag = !styleTruthy l.style ∧
          st'.lastParsedLinkIndex = some (st.nextLinkIndex + ls.length - 1) ∧
          mapGet st'.linksByIndex (st.nextLinkIndex + ls.length - 1) = some (canonLink l)) →
       ∀ f, f > suffix.length →
         parseBodyAux f suffix (ls.foldl (fun ch l => ch.addLink (canonLink l)) chart) st'
           stopOnEnd flag = r) :
    ∀ f, f > (printLinks ls ind st.nextLinkIndex).1.length + suffix.length →
      parseBodyAux f ((printLinks ls ind st.nextLinkIndex).1 ++ suffix) chart st stopOnEnd
        lastWasLink = r := by
  induction ls generalizing chart st lastWasLink with
  | nil =>
      intro f hf
      simp only [printLinks, List.nil_append]
      exact hcont st lastWasLink (by simp) (fun _ => ⟨rfl, rfl⟩)
        (fun l hl => by simp at hl) f (by simpa [printLinks] using hf)
  | cons l rest ih =>
      intro f hf
      have hwl := hwf l (by simp)
      obtain ⟨f2, rfl⟩ : ∃ f2, f = f2 + 1 := by
        cases f with
        | zero => simp [printLinks] at hf
        | succ f2 => exact ⟨f2, rfl⟩
      simp only [printLinks, List.cons_append]
      have hlfacts := linkLine_facts l hwl
      rw [parseBodyAux_step_link f2 _ _ chart st stopOnEnd lastWasLink l
        (trim_indent ind _ hind hlfacts.1 hlfacts.2.1) hwl]
      by_cases hsty : styleTruthy l.style = true
      · -- an inline style line follows the link line
        simp only [if_pos hsty, List.cons_append]
        obtain ⟨f3, rfl⟩ : ∃ f3, f2 = f3 + 1 := by
          cases f2 with
          | zero =>
              exfalso
              simp only [printLinks, if_pos hsty] at hf
              simp at hf
          | succ f3 => exact ⟨f3, rfl⟩
        have hwsty : (!(linkStyleText ((l.style).getD (Sum.inl []))).isEmpty &&
            trimmedB (linkStyleText ((l.style).getD (Sum.inl []))) &&
            noLTB (linkStyleText ((l.style).getD (Sum.inl [])))) = true := by
          have hwl2 := hwl
          simp only [wfLink, Bool.and_eq_true] at hwl2
          have h10 := hwl2.2
          rw [if_pos hsty] at h10
          exact h10
        simp only [Bool.and_eq_true] at hwsty
        have hsv : trim (linkStyleText ((l.style).getD (Sum.inl []))) =
            linkStyleText ((l.style).getD (Sum.inl [])) := trimmedB_eq _ hwsty.1.2
        have hnl := hwsty.2
        have hps : ind ++ l.printStyle st.nextLinkIndex =
            ind ++ (strL "linkStyle " ++ natToStr st.nextLinkIndex ++ [' '] ++
              linkStyleText ((l.style).getD (Sum.inl [])) ++ [';']) := by
          unfold Link.printStyle
          rw [if_pos hsty]
        have hpsfacts := positionalLine_facts st.nextLinkIndex
          (linkStyleText ((l.style).getD (Sum.inl []))) hsv hnl
        have hcond : ((true : Bool) &&
            (ParseState.mk (st.nextLinkIndex + 1)
              (mapSet st.linksByIndex st.nextLinkIndex (canonParsedLink l))
              (some st.nextLinkIndex)).lastParsedLinkIndex == some st.nextLinkIndex &&
            (match mapGet (ParseState.mk (st.nextLinkIndex + 1)
              (mapSet st.linksByIndex st.nextLinkIndex (canonParsedLink l))
              (some st.nextLinkIndex)).linksByIndex st.nextLinkIndex with
             | some l2 => !styleTruthy l2.style
             | none => false)) = true := by
          show ((true : Bool) && (some st.nextLinkIndex == some st.nextLinkIndex) &&
            (match mapGet (mapSet st.linksByIndex st.nextLinkIndex (canonParsedLink l))
              st.nextLinkIndex with
             | some l2 => !styleTruthy l2.style
             | none => false)) = true
          rw [mapGet_mapSet]
          simp [canonParsedLink, styleTruthy]
        rw [hps, parseBodyAux_step_inline f3 _ _ _ _ stopOnEnd true st.nextLinkIndex
          (linkStyleText ((l.style).getD (Sum.inl []))) (trim_indent ind _ hind
            hpsfacts.1 hpsfacts.2.1) hsv hnl hcond]
        rw [setLastLinkStyle_addLink]
        rw [show ({ canonParsedLink l with
            style := some (Sum.inl (linkStyleText ((l.style).getD (Sum.inl [])))) } : Link) =
          canonLink l from (canonLink_of_truthy l hsty).symm]
        rw [List.nil_append]
        refine ih (chart.addLink (canonLink l))
          (ParseState.mk (st.nextLinkIndex + 1)
            ((mapSet st.linksByIndex st.nextLinkIndex (canonParsedLink l)).map
              (fun p => if p.1 = st.nextLinkIndex then
                (p.1, { p.2 with style := some (Sum.inl (linkStyleText
                  ((l.style).getD (Sum.inl [])))) }) else p))
            (some st.nextLinkIndex)) false (fun m hm => hwf m (by simp [hm]))
          ?_ f3 ?_
        · intro st2 flag2 hn2 hemp2 hlast2 f4 hf4
          refine hcont st2 flag2 (by rw [hn2]; simp; omega) (by simp) ?_ f4 hf4
          intro lx hlx
          cases hrest : rest with
          | nil =>
              subst hrest
              simp only [List.getLast?_singleton] at hlx
              have hlxl : l = lx := Option.some.inj hlx
              subst hlxl
              obtain ⟨h1, h2⟩ := hemp2 rfl
              subst h1
              refine ⟨by simp [h2, hsty], by simp, ?_⟩
              show mapGet ((mapSet st.linksByIndex st.nextLinkIndex (canonParsedLink l)).map
                (fun p => if p.1 = st.nextLinkIndex then
                  (p.1, { p.2 with style := some (Sum.inl (linkStyleText
                    ((l.style).getD (Sum.inl [])))) }) else p))
                (st.nextLinkIndex + [l].length - 1) = some (canonLink l)
              rw [show st.nextLinkIndex + [l].length - 1 = st.nextLinkIndex from by simp]
              rw [show mapSet st.linksByIndex st.nextLinkIndex (canonParsedLink l) =
                (st.nextLinkIndex, canonParsedLink l) :: st.linksByIndex from rfl]
              rw [canonLink_of_truthy l hsty]
              simp [mapGet, List.find?]
          | cons q qs =>
              have hlx2 : rest.getLast? = some lx := by
                rw [hrest] at hlx ⊢
                exact (List.getLast?_cons_cons).symm.trans hlx
              obtain ⟨hA, hB, hC⟩ := hlast2 lx hlx2
              have harith : st.nextLinkIndex + 1 + rest.length - 1 =
                  st.nextLinkIndex + (l :: rest).length - 1 := by
                simp only [List.length_cons]
                omega
              refine ⟨hA, ?_, ?_⟩
              · rw [hB, harith, hrest]
              · rw [← hrest, ← harith]
                exact hC
        · simp only [printLinks, if_pos hsty, List.cons_append, List.singleton_append] at hf
          simp at hf ⊢
          omega
      · -- no inline style line
        simp only [if_neg hsty, List.nil_append]
        have hsty2 : styleTruthy l.style = false := by
          simpa using hsty
        rw [show canonParsedLink l = canonLink l from (canonLink_of_untruthy l hsty2).symm]
        refine ih (chart.addLink (canonLink l))
          (ParseState.mk (st.nextLinkIndex + 1)
            (mapSet st.linksByIndex st.nextLinkIndex (canonLink l))
            (some st.nextLinkIndex)) true (fun m hm => hwf m (by simp [hm]))
          ?_ f2 ?_
        · intro st2 flag2 hn2 hemp2 hlast2 f4 hf4
          refine hcont st2 flag2 (by rw [hn2]; simp; omega) (by simp) ?_ f4 hf4
          intro lx hlx
          cases hrest : rest with
          | nil =>
              subst hrest
              simp only [List.getLast?_singleton] at hlx
              have hlxl : l = lx := Option.some.inj hlx
              subst hlxl
              obtain ⟨h1, h2⟩ := hemp2 rfl
              subst h1
              refine ⟨by simp [h2, hsty2], by simp, ?_⟩
              show mapGet (mapSet st.linksByIndex st.nextLinkIndex (canonLink l))
                (st.nextLinkIndex + [l].length - 1) = some (canonLink l)
              rw [show st.nextLinkIndex + [l].length - 1 = st.nextLinkIndex from by simp]
              exact mapGet_mapSet _ _ _
          | cons q qs =>
              have hlx2 : rest.getLast? = some lx := by
                rw [hrest] at hlx ⊢
                exact (List.getLast?_cons_cons).symm.trans hlx
              obtain ⟨hA, hB, hC⟩ := hlast2 lx hlx2
              have harith : st.nextLinkIndex + 1 + rest.length - 1 =
                  st.nextLinkIndex + (l :: rest).length - 1 := by
                simp only [List.length_cons]
                omega
              refine ⟨hA, ?_, ?_⟩
              · rw [hB, harith, hrest]
              · rw [← hrest, ← harith]
                exact hC
        · simp only [printLinks, if_neg hsty, List.nil_append, List.cons_append] at hf
          simp at hf ⊢
          omega

/-- Unfolding `stAfterLinks` over a link with a truthy style. -/
theorem stAfterLinks_cons_truthy (l : Link) (rest : List Link) (st : ParseState)
    (h : styleTruthy l.style = true) :
    stAfterLinks (l :: rest) st = stAfterLinks rest
      (ParseState.mk (st.nextLinkIndex + 1)
        ((mapSet st.linksByIndex st.nextLinkIndex (canonParsedLink l)).map (fun p =>
          if p.1 = st.nextLinkIndex then
            (p.1, { p.2 with style := some (Sum.inl (linkStyleText
              ((l.style).getD (Sum.inl [])))) })
          else p))
        (some st.nextLinkIndex)) := by
  simp only [stAfterLinks, h, if_true]

/-- Unfolding `stAfterLinks` over a link with an untruthy style. -/
theorem stAfterLinks_cons_untruthy (l : Link) (rest : List Link) (st : ParseState)
    (h : styleTruthy l.style = false) :
    stAfterLinks (l :: rest) st = stAfterLinks rest
      (ParseState.mk (st.nextLinkIndex + 1)
        (mapSet st.linksByIndex st.nextLinkIndex (canonParsedLink l))
        (some st.nextLinkIndex)) := by
  simp only [stAfterLinks, h, if_false, Bool.false_eq_true]

/-- `stAfterLinks` advances the counter by the number of links. -/
theorem stAfterLinks_next (ls : List Link) (st : ParseState) :
    (stAfterLinks ls st).nextLinkIndex = st.nextLinkIndex + ls.length := by
  induction ls generalizing st with
  | nil => rfl
  | cons l rest ih =>
      by_cases h : styleTruthy l.style = true
      · rw [stAfterLinks_cons_truthy l rest st h, ih]
        simp
        omega
      · rw [stAfterLinks_cons_untruthy l rest st (by simpa using h), ih]
        simp
        omega

/-- `stAfterChart` advances the counter by the chart's total link count
(strong-induction form). -/
theorem stAfter_next_aux : ∀ n : Nat, ∀ c : Chart, sizeOf c ≤ n → ∀ st : ParseState,
    (stAfterChart c st).nextLinkIndex = st.nextLinkIndex + Chart.totalLinks c := by
  intro n
  induction n using Nat.strong_induction_on with
  | _ n IH =>
    intro c hc st
    obtain ⟨t, d, ns, ls, ss, cd, ca, pl⟩ := c
    have hszss : sizeOf ss < n := by
      have : sizeOf ss < sizeOf (Chart.mk t d ns ls ss cd ca pl) := by
        simp [Chart.mk.sizeOf_spec]; omega
      omega
    have hsubs : ∀ ss' : List Subgraph, sizeOf ss' < n → ∀ st' : ParseState,
        (stAfterSubs ss' st').nextLinkIndex = st'.nextLinkIndex + totalLinksSubs ss' := by
      intro ss'
      induction ss' with
      | nil => intro _ st'; simp [stAfterSubs, totalLinksSubs]
      | cons s rest ihr =>
        intro hsz st'
        obtain ⟨idO, ch⟩ := s
        have hch : sizeOf ch < n := by
          have h1 : sizeOf ch < sizeOf (Subgraph.mk idO ch) := by
            simp [Subgraph.mk.sizeOf_spec]
          have h2 : sizeOf (Subgraph.mk idO ch) < sizeOf (Subgraph.mk idO ch :: rest) := by
            simp; omega
          omega
        have hrest : sizeOf rest < n := by
          have : sizeOf rest < sizeOf (Subgraph.mk idO ch :: rest) := by simp
          omega
        have hbody := IH (sizeOf ch) hch ch (le_refl _)
        show (stAfterSubs rest (stAfterChart ch st')).nextLinkIndex = _
        rw [ihr hrest, hbody st', totalLinksSubs_cons]
        simp [Subgraph.toChart]
        omega
    show (stAfterSubs ss (stAfterLinks ls st)).nextLinkIndex = _
    rw [hsubs ss hszss, stAfterLinks_next]
    simp [Chart.totalLinks]
    omega

/-- `stAfterChart` advances the counter by the chart's total link count. -/
theorem stAfterChart_next (c : Chart) (st : ParseState) :
    (stAfterChart c st).nextLinkIndex = st.nextLinkIndex + Chart.totalLinks c :=
  stAfter_next_aux (sizeOf c) c (le_refl _) st

/-- `stAfterSubs` advances the counter by the subgraphs' total link count. -/
theorem stAfterSubs_next (ss : List Subgraph) (st : ParseState) :
    (stAfterSubs ss st).nextLinkIndex = st.nextLinkIndex + totalLinksSubs ss := by
  induction ss generalizing st with
  | nil => simp [stAfterSubs, totalLinksSubs]
  | cons s rest ih =>
      obtain ⟨idO, ch⟩ := s
      show (stAfterSubs rest (stAfterChart ch st)).nextLinkIndex = _
      rw [ih, stAfterChart_next, totalLinksSubs_cons]
      simp [Subgraph.toChart]
      omega

end Mermaid
